import Mathlib

/-!
Verification of the adaptive calendar queue in
`lcelib/misc/CalQueue.H` (classes `EventList`, `CalQCore`, `MyCalQueue`).

Shallow embedding conventions:
* An event is a value `⟨id, time⟩`; the intrusive `next` pointer of the C++
  code is represented by the position of the event in a Lean `List Event`
  (head = `root`, `getNext` = the following list entry).
* Unsigned integral times and counters are modelled as `Nat`; the claims
  under study stay far below any machine-word bound, so no `% 2 ^ w`
  wrapping is applied.
* `assert` failures and non-terminating loops are modelled by `Option`:
  `none` means the C++ execution does not return normally.  Loops whose
  termination is data dependent take an explicit fuel argument; the fuel
  chosen for `CalQCore::pop` is proved sufficient for every invariant-
  respecting state.
-/

namespace CalQ

/-- An event as seen by `EventTypeTraits`: an identity (to track individual
nodes) and a scheduled firing time (`CalQEvent::time`). -/
structure Event where
  id : Nat
  time : Nat
deriving DecidableEq

/-- Comparison used by the ordered event lists: order by scheduled time. -/
def timeLE (a b : Event) : Prop := a.time ≤ b.time

instance : DecidableRel timeLE := fun a b => Nat.decLe a.time b.time

instance : IsTotal Event timeLE := ⟨fun a b => Nat.le_total a.time b.time⟩

instance : IsTrans Event timeLE := ⟨fun _ _ _ h h2 => Nat.le_trans h h2⟩

/-- EventList::push (CalQueue.H lines 151-174): ordered insertion.  If the
list is empty or the head's time is `≥` the new event's time, the new event
becomes the head; otherwise the scan advances while the next node's time is
strictly less than the new event's time and splices the event in before the
first node whose time is `≥` it. -/
def listPush (subject : Event) : List Event → List Event
  | [] => [subject]
  | root :: rest =>
    if subject.time ≤ root.time then subject :: root :: rest
    else root :: listPush subject rest

/-- EventList::pop (lines 176-184): detach and return the head. -/
def listPop : List Event → Option Event × List Event
  | [] => (none, [])
  | root :: rest => (some root, rest)

/-- EventList::remove (lines 199-218), modelled faithfully to its control
flow: the head and the node after the head are inspected, but the scan
pointer `prevToCurr` is never advanced inside the `while` loop, so when the
subject is not among the first two nodes of a list with at least two nodes
the loop never terminates.  `none` models that non-termination. -/
def listRemove (subject : Event) : List Event → Option (Bool × List Event)
  | [] => some (false, [])
  | root :: rest =>
    if root = subject then some (true, rest)
    else
      match rest with
      | [] => some (false, [root])
      | r :: rest2 =>
        if r = subject then some (true, root :: rest2) else none

/-- State of `CalQCore` (lines 229-379): the bin array plus the geometry
constants and scan state.  `bins` has `numBins` entries throughout. -/
structure CoreState where
  bins : List (List Event)
  binSize : Nat
  numBins : Nat
  divideShift : Nat
  moduloMask : Nat
  logTableSize : Nat
  currBin : Nat
  nextYearStart : Nat
  numEvents : Nat
  lastPopped : Nat
deriving DecidableEq

/-- CalQCore::getSlot (lines 255-257). -/
def getSlot (st : CoreState) (time : Nat) : Nat :=
  (time &&& st.moduloMask) >>> st.divideShift

/-- CalQCore constructor (lines 262-277). -/
def initCore (logBinSize logNumBins startTime : Nat) : CoreState :=
  let binSize := 1 <<< logBinSize
  let numBins := 1 <<< logNumBins
  let moduloMask := binSize * numBins - 1
  { bins := List.replicate numBins []
    binSize := binSize
    numBins := numBins
    divideShift := logBinSize
    moduloMask := moduloMask
    logTableSize := logNumBins
    currBin := (startTime &&& moduloMask) >>> logBinSize
    nextYearStart := ((startTime >>> (logBinSize + logNumBins)) + 1) * binSize * numBins
    numEvents := 0
    lastPopped := startTime }

/-- CalQCore::push (lines 307-315).  The causality assertion
`getEventTime(subject) >= lastPopped` fails (`none`) when the event is
scheduled before the last popped time; otherwise the event count grows and
the event is inserted into the bin selected by `getSlot`. -/
def corePush (st : CoreState) (subject : Event) : Option CoreState :=
  if subject.time < st.lastPopped then none
  else
    some { st with
      numEvents := st.numEvents + 1
      bins := st.bins.set (getSlot st subject.time)
        (listPush subject (st.bins.getD (getSlot st subject.time) [])) }

/-- Cursor advance at the end of one iteration of the `while (true)` loop of
CalQCore::pop (lines 340-344): `++currBin`, wrapping to 0 and pushing
`nextYearStart` one year ahead when the increment reaches `numBins`. -/
def advanceBin (st : CoreState) : CoreState :=
  if st.currBin + 1 = st.numBins then
    { st with currBin := 0, nextYearStart := st.nextYearStart + (st.moduloMask + 1) }
  else { st with currBin := st.currBin + 1 }

/-- The `while (true)` scan of CalQCore::pop (lines 324-345), with explicit
fuel.  Each iteration inspects bin `currBin`: a non-empty bin whose minimum
time lies in the current year yields that head (after the assertion
`lastPopped <= getMinTime()`), a non-empty bin holding only future-year
events bumps the future-event accumulator, and in either non-returning case
the probe accumulator is bumped and the cursor advances. -/
def corePopLoop : Nat → CoreState → Nat → Nat → Option (Event × Nat × Nat × CoreState)
  | 0, _, _, _ => none
  | fuel + 1, st, probeLenAcc, numFutEvsAcc =>
    match st.bins.getD st.currBin [] with
    | e :: rest =>
      if e.time < st.nextYearStart then
        if st.lastPopped ≤ e.time then
          some (e, probeLenAcc, numFutEvsAcc,
            { st with bins := st.bins.set st.currBin rest, lastPopped := e.time })
        else none
      else
        corePopLoop fuel (advanceBin st) (probeLenAcc + 1) (numFutEvsAcc + 1)
    | [] => corePopLoop fuel (advanceBin st) (probeLenAcc + 1) numFutEvsAcc

/-- Largest scheduled time currently stored in the bins. -/
def maxTimeOf (st : CoreState) : Nat :=
  (st.bins.flatten.map Event.time).foldr max 0

/-- Fuel that lemma `corePopLoop_finds_min` proves sufficient for the scan of
`CalQCore::pop` on every invariant-respecting state. -/
def popFuel (st : CoreState) : Nat :=
  (maxTimeOf st / (st.moduloMask + 1) + 2) * st.numBins + 1

/-- CalQCore::pop (lines 317-346): an empty queue returns immediately with
no event; otherwise `numEvents` is decremented up front and the scan loop
runs.  The two reference accumulators are threaded through explicitly. -/
def corePop (st : CoreState) (probeLenAcc numFutEvsAcc : Nat) :
    Option (Option Event × Nat × Nat × CoreState) :=
  if st.numEvents = 0 then some (none, probeLenAcc, numFutEvsAcc, st)
  else
    (corePopLoop (popFuel st) { st with numEvents := st.numEvents - 1 }
        probeLenAcc numFutEvsAcc).map
      fun r => (some r.1, r.2.1, r.2.2.1, r.2.2.2)

/-- CalQCore::remove (lines 348-350): delegate to the removal of the bin
selected by the subject's time.  `numEvents` is not touched. -/
def coreRemove (st : CoreState) (subject : Event) : Option (Bool × CoreState) :=
  (listRemove subject (st.bins.getD (getSlot st subject.time) [])).map
    fun r => (r.1, { st with bins := st.bins.set (getSlot st subject.time) r.2 })

/-- Inner loop of CalQCore::consume: pop every event of one source bin (head
first) and push it into the destination core. -/
def consumeList (dst : CoreState) : List Event → Option CoreState
  | [] => some dst
  | e :: rest => (corePush dst e).bind fun dst2 => consumeList dst2 rest

/-- CalQCore::consume (lines 357-362): drain the source's bins in index
order into the destination. -/
def coreConsume (dst src : CoreState) : Option CoreState :=
  (src.bins.take src.numBins).foldlM consumeList dst

/-- Unsigned shift by a signed count, used by the retuning loops of
MyCalQueue::pop (lines 437-458).  The C++ expression
`sum >> (logNumBins - 2 + change)` mixes unsigned and signed operands and
its behaviour for a negative effective count is undefined; following the
described intent of the tuning procedure (a signed log2 adjustment of the
ratio) a negative count is modelled as the corresponding left shift. -/
def shiftR (x : Nat) (n : Int) : Nat :=
  if n < 0 then x <<< (-n).toNat else x >>> n.toNat

/-- Downward adjustment loop of the retuning check
(`while ((sum >> (base + change)) == 0) change--;`), with fuel; `none`
models non-termination (which happens exactly when `sum = 0`). -/
def downLoop : Nat → Nat → Int → Int → Option Int
  | 0, _, _, _ => none
  | fuel + 1, x, base, change =>
    if shiftR x (base + change) = 0 then downLoop fuel x base (change - 1)
    else some change

/-- Upward adjustment loop of the retuning check
(`while ((sum >> (base + change)) > 3) change++;`), with fuel. -/
def upLoop : Nat → Nat → Int → Int → Option Int
  | 0, _, _, _ => none
  | fuel + 1, x, base, change =>
    if shiftR x (base + change) > 3 then upLoop fuel x base (change + 1)
    else some change

/-- One complete adjustment (down loop then up loop, starting from a zero
change) as performed for each of the two counters in MyCalQueue::pop.  The
fuels are sufficient whenever `x ≠ 0`: the down loop stops no later than the
point where the effective count reaches zero, and each up-loop step halves
the inspected value. -/
def bandCalc (x : Nat) (base : Int) : Option Int :=
  (downLoop (base.toNat + 2) x base 0).bind fun c =>
    upLoop (shiftR x (base + c) + 1) x base c

/-- Retuning tail of MyCalQueue::pop (lines 433-473): compute the bin-size
and year-length log changes, derive the bin-count change, and if anything
changed build a replacement core at the current logical time, drain the old
core into it and adopt it.  Negative resulting log parameters would feed a
negative value to the `unsigned char` constructor arguments and an undefined
shift, modelled as `none`. -/
def retuneCore (probeSum futSum : Nat) (st : CoreState) : Option CoreState :=
  (bandCalc probeSum (st.logTableSize : Int)).bind fun binSizeLogChange =>
    (bandCalc futSum ((st.logTableSize : Int) - 2)).bind fun yearLenLogChange =>
      let numBinsLogChange := yearLenLogChange - binSizeLogChange
      if binSizeLogChange ≠ 0 ∨ numBinsLogChange ≠ 0 then
        let newLogBinSize := (st.divideShift : Int) + binSizeLogChange
        let newLogNumBins := (st.logTableSize : Int) + numBinsLogChange
        if 0 ≤ newLogBinSize ∧ 0 ≤ newLogNumBins then
          coreConsume (initCore newLogBinSize.toNat newLogNumBins.toNat st.lastPopped) st
        else none
      else some st

/-- State of `MyCalQueue` (lines 403-484): one core plus the three
statistics counters. -/
structure MyQ where
  queue : CoreState
  popProbeLenSum : Nat
  popFutureEventSum : Nat
  popCounter : Nat
deriving DecidableEq

/-- MyCalQueue constructor (lines 414-416): log bin size 0 and one more
doubling of bins than the initial log event count estimate. -/
def initMy (startTime initLogNumEvents : Nat) : MyQ :=
  { queue := initCore 0 (initLogNumEvents + 1) startTime
    popProbeLenSum := 0
    popFutureEventSum := 0
    popCounter := 0 }

/-- MyCalQueue::push (lines 418-421): forward to the core; the returned
live-event count is also produced. -/
def myPush (q : MyQ) (newEvent : Event) : Option (Nat × MyQ) :=
  (corePush q.queue newEvent).map fun st => (st.numEvents, { q with queue := st })

/-- MyCalQueue::pop (lines 423-480): pop through the core with the
accumulated counters, bump the pop counter, and when it reaches the core's
bin count run the retuning check and reset all three counters. -/
def myPop (q : MyQ) : Option (Option Event × MyQ) :=
  (corePop q.queue q.popProbeLenSum q.popFutureEventSum).bind fun r =>
    let popCounter := q.popCounter + 1
    if popCounter = r.2.2.2.numBins then
      (retuneCore r.2.1 r.2.2.1 r.2.2.2).map fun st =>
        (r.1, ⟨st, 0, 0, 0⟩)
    else some (r.1, ⟨r.2.2.2, r.2.1, r.2.2.1, popCounter⟩)

/-- MyCalQueue::remove (line 481): forward to the core. -/
def myRemove (q : MyQ) (subject : Event) : Option (Bool × MyQ) :=
  (coreRemove q.queue subject).map fun r => (r.1, { q with queue := r.2 })

/-- One operation of the driving simulation loop. -/
inductive Op where
  | push (e : Event)
  | pop
  | remove (e : Event)
deriving DecidableEq

/-- Number of pushes in an operation sequence. -/
def countPush : List Op → Nat
  | [] => 0
  | Op.push _ :: ops => countPush ops + 1
  | _ :: ops => countPush ops

/-- Number of pops in an operation sequence. -/
def countPop : List Op → Nat
  | [] => 0
  | Op.pop :: ops => countPop ops + 1
  | _ :: ops => countPop ops

/-- True when the sequence contains no remove operation. -/
def pushPopOnly : List Op → Bool
  | [] => true
  | Op.remove _ :: _ => false
  | _ :: ops => pushPopOnly ops

/-- True when, starting from `n` stored events, every pop of the sequence is
issued while at least one event is stored. -/
def popsCovered : Nat → List Op → Bool
  | _, [] => true
  | n, Op.push _ :: ops => popsCovered (n + 1) ops
  | n, Op.pop :: ops => decide (n ≠ 0) && popsCovered (n - 1) ops
  | n, Op.remove _ :: ops => popsCovered n ops

/-- Prepend a pop result to the list of popped events when it carried one. -/
def consOpt : Option Event → List Event → List Event
  | none, l => l
  | some e, l => e :: l

/-- Run a sequence of operations against a bare `CalQCore` (the fixed-
geometry reference): `none` as soon as one operation fails an assertion or
fails to terminate.  Produces the popped events in order together with the
final state.  The reference accumulators of `CalQCore::pop` are supplied as
fresh zeroes each call and discarded, which is sound because they never
influence the pop's result. -/
def runCore (st : CoreState) : List Op → Option (List Event × CoreState)
  | [] => some ([], st)
  | Op.push e :: ops => (corePush st e).bind fun st2 => runCore st2 ops
  | Op.pop :: ops =>
    (corePop st 0 0).bind fun r =>
      (runCore r.2.2.2 ops).map fun out => (consOpt r.1 out.1, out.2)
  | Op.remove e :: ops => (coreRemove st e).bind fun r => runCore r.2 ops

/-- Run a sequence of operations against a `MyCalQueue` (the adaptive
queue). -/
def runMy (q : MyQ) : List Op → Option (List Event × MyQ)
  | [] => some ([], q)
  | Op.push e :: ops => (myPush q e).bind fun r => runMy r.2 ops
  | Op.pop :: ops =>
    (myPop q).bind fun r =>
      (runMy r.2 ops).map fun out => (consOpt r.1 out.1, out.2)
  | Op.remove e :: ops => (myRemove q e).bind fun r => runMy r.2 ops

/-! ### Specification-side notions: geometry, invariants, scan positions -/

/-- All events currently linked into the bins, as a multiset. -/
def eventsOf (st : CoreState) : Multiset Event := (st.bins.flatten : List Event)

/-- The multiset of scheduled times of all stored events. -/
def timesOf (st : CoreState) : Multiset Nat := (eventsOf st).map Event.time

/-- Length of one scan year, `moduloMask + 1 = binSize * numBins`. -/
def yearLen (st : CoreState) : Nat := st.moduloMask + 1

/-- Smallest time value not yet passed by the scan cursor: everything below
this value belongs to a (bin, year) pair the cursor has moved beyond. -/
def scanFloor (st : CoreState) : Nat :=
  st.nextYearStart - yearLen st + st.currBin * st.binSize

/-- Consistency of the redundant geometry fields of `CalQCore`, as
established by its constructor, plus the basic cursor bound. -/
structure Geom (st : CoreState) : Prop where
  bs : st.binSize = 2 ^ st.divideShift
  nb : st.numBins = 2 ^ st.logTableSize
  mask : st.moduloMask + 1 = st.binSize * st.numBins
  len : st.bins.length = st.numBins
  cb : st.currBin < st.numBins

/-- Every stored event sits in the bin its time hashes to. -/
def Slotted (st : CoreState) : Prop :=
  ∀ i, ∀ e ∈ st.bins.getD i [], getSlot st e.time = i

/-- Every bin is sorted by non-decreasing scheduled time. -/
def SortedBins (st : CoreState) : Prop :=
  ∀ l ∈ st.bins, List.Sorted timeLE l

/-- Invariant of every externally visible `CalQCore` state: it is
established by the constructor and preserved by push and pop.  Beyond the
geometry and per-bin ordering facts it records that the event count matches
the stored events, that no stored event is scheduled before `lastPopped`,
that `nextYearStart` is a positive multiple of the year length, and that the
scan cursor has not moved past `lastPopped`'s bin-of-year. -/
structure Inv (st : CoreState) : Prop where
  geom : Geom st
  slotted : Slotted st
  sorted : SortedBins st
  count : st.numEvents = st.bins.flatten.length
  bound : ∀ e ∈ st.bins.flatten, st.lastPopped ≤ e.time
  align : st.nextYearStart % yearLen st = 0
  ypos : yearLen st ≤ st.nextYearStart
  lp_lt : st.lastPopped < st.nextYearStart
  floor : scanFloor st ≤ st.lastPopped

/-- Absolute scan position of a state: completed years times bins, plus the
cursor.  Advancing the cursor increments this by exactly one. -/
def posOf (st : CoreState) : Nat :=
  (st.nextYearStart / yearLen st - 1) * st.numBins + st.currBin

/-- Absolute scan position at which an event of time `m` is found by the
scan: its year index times bins plus its bin-of-year. -/
def targetPos (st : CoreState) (m : Nat) : Nat :=
  m / yearLen st * st.numBins + m % yearLen st / st.binSize

/-- Along an operation sequence, every pop of `CalQCore` that completes and
yields an event yields one of globally minimal scheduled time among the
events stored at that moment. -/
def PopsMinimal : CoreState → List Op → Prop
  | _, [] => True
  | st, Op.push e :: ops => ∀ st2, corePush st e = some st2 → PopsMinimal st2 ops
  | st, Op.remove e :: ops => ∀ r, coreRemove st e = some r → PopsMinimal r.2 ops
  | st, Op.pop :: ops => ∀ r, corePop st 0 0 = some r →
      ((∀ e, r.1 = some e → ∀ x ∈ st.bins.flatten, e.time ≤ x.time) ∧
        PopsMinimal r.2.2.2 ops)

/-! ### List and multiset helpers -/

theorem listPush_eq_orderedInsert (subject : Event) (l : List Event) :
    listPush subject l = l.orderedInsert timeLE subject := by
  induction l with
  | nil => rfl
  | cons a l ih =>
    by_cases h : subject.time ≤ a.time <;>
      simp [listPush, List.orderedInsert, timeLE, h, ih]

theorem mem_getD_flatten {l : List (List Event)} {i : Nat} {x : Event}
    (h : x ∈ l.getD i []) : x ∈ l.flatten := by
  rw [List.getD_eq_getElem?_getD] at h
  cases hg : l[i]? with
  | none => rw [hg] at h; simp at h
  | some s =>
    rw [hg] at h
    exact List.mem_flatten.mpr ⟨s, List.getElem?_mem hg, h⟩

theorem mem_flatten_getD {l : List (List Event)} {x : Event} (h : x ∈ l.flatten) :
    ∃ i, i < l.length ∧ x ∈ l.getD i [] := by
  rcases List.mem_flatten.mp h with ⟨s, hs, hx⟩
  rcases List.getElem_of_mem hs with ⟨i, hi, rfl⟩
  exact ⟨i, hi, by simp [List.getD_eq_getElem?_getD, List.getElem?_eq_getElem hi, hx]⟩

theorem getD_set_self (l : List (List Event)) (i : Nat) (v : List Event)
    (h : i < l.length) : (l.set i v).getD i [] = v := by
  simp [List.getD_eq_getElem?_getD, List.getElem?_set_self, h]

theorem getD_set_ne (l : List (List Event)) {i j : Nat} (v : List Event)
    (h : i ≠ j) : (l.set i v).getD j [] = l.getD j [] := by
  simp [List.getD_eq_getElem?_getD, List.getElem?_set_ne h]

theorem flatten_set_add (l : List (List Event)) (i : Nat) (v : List Event)
    (h : i < l.length) :
    (↑(l.set i v).flatten : Multiset Event) + ↑(l.getD i []) =
      ↑l.flatten + ↑v := by
  induction l generalizing i with
  | nil => simp at h
  | cons a l ih =>
    cases i with
    | zero =>
      show (↑(v ++ l.flatten) : Multiset Event) + ↑a = ↑(a ++ l.flatten) + ↑v
      show (↑v + ↑l.flatten : Multiset Event) + ↑a = (↑a + ↑l.flatten) + ↑v
      abel
    | succ i =>
      have hlt : i < l.length := by simpa using h
      show (↑a + ↑(l.set i v).flatten : Multiset Event) + ↑(l.getD i []) =
        (↑a + ↑l.flatten) + ↑v
      have := ih i hlt
      calc (↑a + ↑(l.set i v).flatten : Multiset Event) + ↑(l.getD i [])
          = ↑a + ((↑(l.set i v).flatten : Multiset Event) + ↑(l.getD i [])) := by abel
        _ = ↑a + ((↑l.flatten : Multiset Event) + ↑v) := by rw [this]
        _ = (↑a + ↑l.flatten : Multiset Event) + ↑v := by abel

theorem exists_min_event (l : List Event) (h : l ≠ []) :
    ∃ e ∈ l, ∀ x ∈ l, e.time ≤ x.time := by
  induction l with
  | nil => exact absurd rfl h
  | cons a l ih =>
    cases l with
    | nil => exact ⟨a, List.mem_singleton_self a, by simp⟩
    | cons b l2 =>
      rcases ih (by simp) with ⟨e, he, hmin⟩
      by_cases hle : a.time ≤ e.time
      · refine ⟨a, List.mem_cons_self a _, ?_⟩
        intro x hx
        rcases List.mem_cons.mp hx with rfl | hx2
        · exact le_rfl
        · exact le_trans hle (hmin x hx2)
      · refine ⟨e, List.mem_cons_of_mem a he, ?_⟩
        intro x hx
        rcases List.mem_cons.mp hx with rfl | hx2
        · exact le_of_lt (lt_of_not_le hle)
        · exact hmin x hx2

theorem le_foldr_max {x : Nat} {l : List Nat} (h : x ∈ l) : x ≤ l.foldr max 0 := by
  induction l with
  | nil => cases h
  | cons a l ih =>
    rcases List.mem_cons.mp h with rfl | h2
    · exact le_max_left _ _
    · exact le_trans (ih h2) (le_max_right _ _)

/-! ### Geometry of a core state -/






theorem Geom.bs_pos {st : CoreState} (h : Geom st) : 0 < st.binSize := by
  rw [h.bs]; exact Nat.pos_pow_of_pos _ (by omega)

theorem Geom.nb_pos {st : CoreState} (h : Geom st) : 0 < st.numBins := by
  rw [h.nb]; exact Nat.pos_pow_of_pos _ (by omega)

theorem Geom.yl :
    ∀ {st : CoreState}, Geom st → yearLen st = st.binSize * st.numBins :=
  fun h => h.mask

/-- The slot function in arithmetic form: time modulo the year length,
divided by the bin size. -/
theorem getSlot_arith_of {st : CoreState} (hbs : st.binSize = 2 ^ st.divideShift)
    (hnb : st.numBins = 2 ^ st.logTableSize)
    (hmask : st.moduloMask + 1 = st.binSize * st.numBins) (t : Nat) :
    getSlot st t = t % yearLen st / st.binSize := by
  have hmask2 : st.moduloMask = 2 ^ (st.divideShift + st.logTableSize) - 1 := by
    rw [hbs, hnb] at hmask
    rw [← pow_add] at hmask
    omega
  have hyl : yearLen st = 2 ^ (st.divideShift + st.logTableSize) := by
    unfold yearLen
    have : 0 < 2 ^ (st.divideShift + st.logTableSize) := Nat.pos_pow_of_pos _ (by omega)
    omega
  unfold getSlot
  rw [hmask2, Nat.and_pow_two_sub_one_eq_mod, Nat.shiftRight_eq_div_pow, ← hbs, hyl]

theorem getSlot_lt_of {st : CoreState} (hbs : st.binSize = 2 ^ st.divideShift)
    (hnb : st.numBins = 2 ^ st.logTableSize)
    (hmask : st.moduloMask + 1 = st.binSize * st.numBins) (t : Nat) :
    getSlot st t < st.numBins := by
  rw [getSlot_arith_of hbs hnb hmask]
  have h1 : t % yearLen st < st.binSize * st.numBins := by
    have hy : yearLen st = st.binSize * st.numBins := hmask
    rw [hy]
    exact Nat.mod_lt _ (by omega)
  exact Nat.div_lt_of_lt_mul h1

theorem getSlot_arith {st : CoreState} (h : Geom st) (t : Nat) :
    getSlot st t = t % yearLen st / st.binSize :=
  getSlot_arith_of h.bs h.nb h.mask t

theorem getSlot_lt {st : CoreState} (h : Geom st) (t : Nat) :
    getSlot st t < st.numBins :=
  getSlot_lt_of h.bs h.nb h.mask t



/-! ### The full core invariant -/


theorem initCore_inv (lbs lnb t : Nat) : Inv (initCore lbs lnb t) := by
  set st := initCore lbs lnb t with hst
  have hbs : st.binSize = 2 ^ lbs := by
    simp [hst, initCore, Nat.shiftLeft_eq]
  have hnb : st.numBins = 2 ^ lnb := by
    simp [hst, initCore, Nat.shiftLeft_eq]
  have hds : st.divideShift = lbs := rfl
  have hlts : st.logTableSize = lnb := rfl
  have hnb_pos : 0 < st.numBins := by rw [hnb]; exact Nat.pos_pow_of_pos _ (by omega)
  have hbs_pos : 0 < st.binSize := by rw [hbs]; exact Nat.pos_pow_of_pos _ (by omega)
  have hmask : st.moduloMask + 1 = st.binSize * st.numBins := by
    have : st.moduloMask = st.binSize * st.numBins - 1 := rfl
    have hpos : 0 < st.binSize * st.numBins := Nat.mul_pos hbs_pos hnb_pos
    omega
  have hyl : yearLen st = st.binSize * st.numBins := hmask
  have hyl2 : st.binSize * st.numBins = 2 ^ (lbs + lnb) := by
    rw [hbs, hnb, pow_add]
  have hylpos : 0 < yearLen st := by unfold yearLen; omega
  have hlen : st.bins.length = st.numBins := by
    simp [hst, initCore]
  have hq : t >>> (lbs + lnb) = t / yearLen st := by
    rw [Nat.shiftRight_eq_div_pow, hyl, hyl2]
  have hny : st.nextYearStart = (t / yearLen st + 1) * yearLen st := by
    have : st.nextYearStart = ((t >>> (lbs + lnb)) + 1) * st.binSize * st.numBins := rfl
    rw [this, hq, mul_assoc, ← hyl]
  have hcb : st.currBin = getSlot st t := rfl
  have hcb_lt : st.currBin < st.numBins := by
    rw [hcb]; exact getSlot_lt_of (hds ▸ hbs) (hlts ▸ hnb) hmask t
  have hgeom : Geom st := ⟨hds ▸ hbs, hlts ▸ hnb, hmask, hlen, hcb_lt⟩
  have hlp : st.lastPopped = t := rfl
  have hflat : st.bins.flatten = [] := by
    simp [hst, initCore]
  refine ⟨hgeom, ?_, ?_, ?_, ?_, ?_, ?_, ?_, ?_⟩
  · intro i e he
    exfalso
    have := mem_getD_flatten he
    rw [hflat] at this
    cases this
  · intro l hl
    have : l = [] := by
      have := List.eq_of_mem_replicate (by simpa [hst, initCore] using hl)
      exact this
    simp [this]
  · show st.numEvents = st.bins.flatten.length
    rw [hflat]
    rfl
  · intro e he
    rw [hflat] at he
    cases he
  · rw [hny]
    exact Nat.mul_mod_left _ _
  · rw [hny]
    have h4 : 1 ≤ t / yearLen st + 1 := Nat.succ_le_succ (Nat.zero_le _)
    calc yearLen st = 1 * yearLen st := (one_mul _).symm
      _ ≤ (t / yearLen st + 1) * yearLen st := Nat.mul_le_mul_right _ h4
  · rw [hlp, hny]
    have h1 := Nat.div_add_mod t (yearLen st)
    have h2 := Nat.mod_lt t hylpos
    have h3 : (t / yearLen st + 1) * yearLen st =
        yearLen st * (t / yearLen st) + yearLen st := by ring
    omega
  · show st.nextYearStart - yearLen st + st.currBin * st.binSize ≤ st.lastPopped
    rw [hlp, hny, hcb, getSlot_arith hgeom]
    have h1 := Nat.div_add_mod t (yearLen st)
    have h2 : t % yearLen st / st.binSize * st.binSize ≤ t % yearLen st :=
      Nat.div_mul_le_self _ _
    have h3 : (t / yearLen st + 1) * yearLen st =
        yearLen st * (t / yearLen st) + yearLen st := by ring
    omega

/-! ### Push lemmas -/

theorem corePush_none_iff {st : CoreState} {e : Event} :
    corePush st e = none ↔ e.time < st.lastPopped := by
  unfold corePush
  split <;> simp_all

theorem corePush_some_eq {st st2 : CoreState} {e : Event}
    (h : corePush st e = some st2) :
    st.lastPopped ≤ e.time ∧
      st2 = { st with
        numEvents := st.numEvents + 1
        bins := st.bins.set (getSlot st e.time)
          (listPush e (st.bins.getD (getSlot st e.time) [])) } := by
  unfold corePush at h
  split at h
  · cases h
  · exact ⟨by omega, by injection h with h2; exact h2.symm⟩

theorem corePush_inv {st st2 : CoreState} {e : Event} (h : Inv st)
    (hp : corePush st e = some st2) :
    Inv st2 ∧ eventsOf st2 = e ::ₘ eventsOf st ∧
      st2.lastPopped = st.lastPopped ∧ st2.numEvents = st.numEvents + 1 ∧
      st2.currBin = st.currBin ∧ st2.nextYearStart = st.nextYearStart ∧
      st2.binSize = st.binSize ∧ st2.numBins = st.numBins ∧
      st2.divideShift = st.divideShift ∧ st2.moduloMask = st.moduloMask ∧
      st2.logTableSize = st.logTableSize := by
  obtain ⟨hle, rfl⟩ := corePush_some_eq hp
  set i := getSlot st e.time with hi
  set newl := listPush e (st.bins.getD i []) with hnewl
  have hilt : i < st.bins.length := by
    rw [h.geom.len]; exact getSlot_lt h.geom e.time
  have hms : (↑(st.bins.set i newl).flatten : Multiset Event) =
      e ::ₘ ↑st.bins.flatten := by
    have hadd := flatten_set_add st.bins i newl hilt
    have hperm : (↑newl : Multiset Event) = e ::ₘ ↑(st.bins.getD i []) := by
      rw [hnewl, listPush_eq_orderedInsert]
      exact Multiset.coe_eq_coe.mpr (List.perm_orderedInsert _ _ _)
    have key : (↑(st.bins.set i newl).flatten : Multiset Event) + ↑(st.bins.getD i []) =
        (e ::ₘ ↑st.bins.flatten) + ↑(st.bins.getD i []) := by
      rw [hadd, hperm, ← Multiset.singleton_add, ← Multiset.singleton_add]
      abel
    exact add_right_cancel key
  have hlen2 : (st.bins.set i newl).flatten.length = st.bins.flatten.length + 1 := by
    have := congrArg Multiset.card hms
    simpa using this
  have hslot : ∀ x : Event, x ∈ newl → getSlot st x.time = i := by
    intro x hx
    rw [hnewl, listPush_eq_orderedInsert] at hx
    rcases (List.mem_orderedInsert timeLE).mp hx with rfl | hx2
    · rfl
    · exact h.slotted i x hx2
  have hsortednew : List.Sorted timeLE newl := by
    rw [hnewl, listPush_eq_orderedInsert]
    refine List.Sorted.orderedInsert e _ ?_
    refine h.sorted _ ?_
    simp [List.getD_eq_getElem?_getD, List.getElem?_eq_getElem hilt]
  refine ⟨⟨⟨h.geom.bs, h.geom.nb, h.geom.mask, ?_, h.geom.cb⟩, ?_, ?_, ?_, ?_,
      h.align, h.ypos, h.lp_lt, h.floor⟩, hms, rfl, rfl, rfl, rfl, rfl, rfl, rfl, rfl, rfl⟩
  · show (st.bins.set i newl).length = st.numBins
    rw [List.length_set, h.geom.len]
  · intro j x hx
    by_cases hj : i = j
    · subst hj
      rw [getD_set_self _ _ _ hilt] at hx
      exact hslot x hx
    · rw [getD_set_ne _ _ hj] at hx
      exact h.slotted j x hx
  · intro l hl
    rcases List.mem_or_eq_of_mem_set hl with hl2 | rfl
    · exact h.sorted l hl2
    · exact hsortednew
  · show st.numEvents + 1 = (st.bins.set i newl).flatten.length
    rw [hlen2, ← h.count]
  · intro x hx
    have : (x : Event) ∈ (↑(st.bins.set i newl).flatten : Multiset Event) := by
      simpa using hx
    rw [hms] at this
    rcases Multiset.mem_cons.mp this with rfl | hx2
    · exact hle
    · exact h.bound x (by simpa using hx2)

/-! ### Pop scan: structural lemmas -/


theorem advanceBin_frame (st : CoreState) :
    (advanceBin st).bins = st.bins ∧ (advanceBin st).binSize = st.binSize ∧
      (advanceBin st).numBins = st.numBins ∧
      (advanceBin st).divideShift = st.divideShift ∧
      (advanceBin st).moduloMask = st.moduloMask ∧
      (advanceBin st).logTableSize = st.logTableSize ∧
      (advanceBin st).numEvents = st.numEvents ∧
      (advanceBin st).lastPopped = st.lastPopped ∧
      st.nextYearStart ≤ (advanceBin st).nextYearStart := by
  unfold advanceBin
  split_ifs <;> simp

theorem advanceBin_geom {st : CoreState} (h : Geom st) : Geom (advanceBin st) := by
  refine ⟨?_, ?_, ?_, ?_, ?_⟩ <;> unfold advanceBin <;> split_ifs with hw
  · exact h.bs
  · exact h.bs
  · exact h.nb
  · exact h.nb
  · exact h.mask
  · exact h.mask
  · exact h.len
  · exact h.len
  · show 0 < st.numBins
    exact h.nb_pos
  · show st.currBin + 1 < st.numBins
    have := h.cb
    omega

theorem advanceBin_align {st : CoreState} (h : st.nextYearStart % yearLen st = 0) :
    (advanceBin st).nextYearStart % yearLen (advanceBin st) = 0 := by
  unfold advanceBin
  split_ifs
  · show (st.nextYearStart + (st.moduloMask + 1)) % yearLen st = 0
    rw [Nat.add_mod, h]
    simp [yearLen]
  · exact h

theorem advanceBin_ypos {st : CoreState} (h : yearLen st ≤ st.nextYearStart) :
    yearLen (advanceBin st) ≤ (advanceBin st).nextYearStart := by
  unfold advanceBin
  split_ifs
  · show yearLen st ≤ st.nextYearStart + (st.moduloMask + 1)
    omega
  · exact h

theorem advanceBin_pos {st : CoreState}
    (hy : yearLen st ≤ st.nextYearStart) :
    posOf (advanceBin st) = posOf st + 1 := by
  have hylpos : 0 < yearLen st := by unfold yearLen; omega
  have hq1 : 1 ≤ st.nextYearStart / yearLen st :=
    (Nat.one_le_div_iff hylpos).mpr hy
  unfold advanceBin
  split_ifs with hw
  · show ((st.nextYearStart + (st.moduloMask + 1)) / yearLen st - 1) * st.numBins + 0 =
      (st.nextYearStart / yearLen st - 1) * st.numBins + st.currBin + 1
    have hstep : (st.nextYearStart + (st.moduloMask + 1)) / yearLen st =
        st.nextYearStart / yearLen st + 1 := by
      show (st.nextYearStart + yearLen st) / yearLen st = _
      exact Nat.add_div_right _ hylpos
    rw [hstep]
    have hsub : (st.nextYearStart / yearLen st - 1) * st.numBins =
        st.nextYearStart / yearLen st * st.numBins - 1 * st.numBins :=
      Nat.sub_mul _ _ _
    have hge : 1 * st.numBins ≤ st.nextYearStart / yearLen st * st.numBins :=
      Nat.mul_le_mul_right _ hq1
    simp only [add_tsub_cancel_right]
    omega
  · show (st.nextYearStart / yearLen st - 1) * st.numBins + (st.currBin + 1) =
      (st.nextYearStart / yearLen st - 1) * st.numBins + st.currBin + 1
    omega

theorem advanceBin_scanFloor {st : CoreState} (hg : Geom st)
    (hy : yearLen st ≤ st.nextYearStart) :
    scanFloor (advanceBin st) = scanFloor st + st.binSize := by
  unfold advanceBin
  split_ifs with hw
  · show st.nextYearStart + (st.moduloMask + 1) - yearLen st + 0 * st.binSize =
      st.nextYearStart - yearLen st + st.currBin * st.binSize + st.binSize
    have hcb : st.currBin = st.numBins - 1 := by have := hg.cb; omega
    have h1 : st.currBin * st.binSize + st.binSize = st.numBins * st.binSize := by
      rw [hcb, Nat.sub_mul]
      have : 1 * st.binSize ≤ st.numBins * st.binSize :=
        Nat.mul_le_mul_right _ hg.nb_pos
      omega
    have h2 : yearLen st = st.numBins * st.binSize := by
      rw [hg.yl]; ring
    have h3 : yearLen st = st.moduloMask + 1 := rfl
    omega
  · show st.nextYearStart - yearLen st + (st.currBin + 1) * st.binSize =
      st.nextYearStart - yearLen st + st.currBin * st.binSize + st.binSize
    have : (st.currBin + 1) * st.binSize = st.currBin * st.binSize + st.binSize := by
      ring
    omega

theorem corePopLoop_succ (fuel : Nat) (st : CoreState) (p f : Nat) :
    corePopLoop (fuel + 1) st p f =
      match st.bins.getD st.currBin [] with
      | e :: rest =>
        if e.time < st.nextYearStart then
          if st.lastPopped ≤ e.time then
            some (e, p, f,
              { st with bins := st.bins.set st.currBin rest, lastPopped := e.time })
          else none
        else corePopLoop fuel (advanceBin st) (p + 1) (f + 1)
      | [] => corePopLoop fuel (advanceBin st) (p + 1) f := rfl

theorem corePopLoop_succ_nil (fuel : Nat) (st : CoreState) (p f : Nat)
    (hbin : st.bins.getD st.currBin [] = []) :
    corePopLoop (fuel + 1) st p f = corePopLoop fuel (advanceBin st) (p + 1) f := by
  rw [corePopLoop_succ, hbin]

theorem corePopLoop_succ_cons (fuel : Nat) (st : CoreState) (p f : Nat)
    (e : Event) (rest : List Event) (hbin : st.bins.getD st.currBin [] = e :: rest) :
    corePopLoop (fuel + 1) st p f =
      if e.time < st.nextYearStart then
        if st.lastPopped ≤ e.time then
          some (e, p, f,
            { st with bins := st.bins.set st.currBin rest, lastPopped := e.time })
        else none
      else corePopLoop fuel (advanceBin st) (p + 1) (f + 1) := by
  rw [corePopLoop_succ, hbin]

theorem corePopLoop_frame :
    ∀ (fuel : Nat) (st : CoreState) (p f : Nat) {e : Event} {p2 f2 : Nat}
      {st2 : CoreState},
      corePopLoop fuel st p f = some (e, p2, f2, st2) →
      st2.numEvents = st.numEvents ∧ st2.binSize = st.binSize ∧
        st2.numBins = st.numBins ∧ st2.divideShift = st.divideShift ∧
        st2.moduloMask = st.moduloMask ∧ st2.logTableSize = st.logTableSize ∧
        st.lastPopped ≤ st2.lastPopped ∧ st2.lastPopped = e.time := by
  intro fuel
  induction fuel with
  | zero =>
    intro st p f e p2 f2 st2 h
    simp [corePopLoop] at h
  | succ fuel ih =>
    intro st p f e p2 f2 st2 h
    obtain ⟨hbins, hbs, hnb, hds, hmask, hlts, hne, hlp, hny⟩ := advanceBin_frame st
    cases hbin : st.bins.getD st.currBin [] with
    | nil =>
      rw [corePopLoop_succ_nil _ _ _ _ hbin] at h
      obtain ⟨a1, a2, a3, a4, a5, a6, a7, a8⟩ := ih _ _ _ h
      exact ⟨a1.trans hne, a2.trans hbs, a3.trans hnb, a4.trans hds, a5.trans hmask,
        a6.trans hlts, hlp ▸ a7, a8⟩
    | cons e0 rest =>
      rw [corePopLoop_succ_cons _ _ _ _ _ _ hbin] at h
      by_cases hfut : e0.time < st.nextYearStart
      · rw [if_pos hfut] at h
        by_cases hassert : st.lastPopped ≤ e0.time
        · rw [if_pos hassert] at h
          simp only [Option.some.injEq, Prod.mk.injEq] at h
          obtain ⟨rfl, -, -, rfl⟩ := h
          exact ⟨rfl, rfl, rfl, rfl, rfl, rfl, hassert, rfl⟩
        · rw [if_neg hassert] at h
          cases h
      · rw [if_neg hfut] at h
        obtain ⟨a1, a2, a3, a4, a5, a6, a7, a8⟩ := ih _ _ _ h
        exact ⟨a1.trans hne, a2.trans hbs, a3.trans hnb, a4.trans hds, a5.trans hmask,
          a6.trans hlts, hlp ▸ a7, a8⟩

theorem corePopLoop_acc :
    ∀ (fuel : Nat) (st : CoreState) (p f : Nat),
      corePopLoop fuel st p f = (corePopLoop fuel st 0 0).map
        (fun r => (r.1, p + r.2.1, f + r.2.2.1, r.2.2.2)) := by
  intro fuel
  induction fuel with
  | zero => intro st p f; simp [corePopLoop]
  | succ fuel ih =>
    intro st p f
    cases hbin : st.bins.getD st.currBin [] with
    | nil =>
      rw [corePopLoop_succ_nil _ _ _ _ hbin, corePopLoop_succ_nil _ _ _ _ hbin]
      rw [ih (advanceBin st) (p + 1) f, ih (advanceBin st) 1 0]
      cases corePopLoop fuel (advanceBin st) 0 0 with
      | none => simp
      | some r => simp; omega
    | cons e0 rest =>
      rw [corePopLoop_succ_cons _ _ _ _ _ _ hbin, corePopLoop_succ_cons _ _ _ _ _ _ hbin]
      by_cases hfut : e0.time < st.nextYearStart
      · by_cases hassert : st.lastPopped ≤ e0.time
        · simp only [if_pos hfut, if_pos hassert]
          simp
        · simp only [if_pos hfut, if_neg hassert]
          simp
      · simp only [if_neg hfut]
        rw [ih (advanceBin st) (p + 1) (f + 1), ih (advanceBin st) 1 1]
        cases corePopLoop fuel (advanceBin st) 0 0 with
        | none => simp
        | some r => simp; omega

theorem corePop_empty {st : CoreState} (h : st.numEvents = 0) (p f : Nat) :
    corePop st p f = some (none, p, f, st) := by
  simp [corePop, h]

theorem corePop_pos {st : CoreState} (h : st.numEvents ≠ 0) (p f : Nat) :
    corePop st p f =
      (corePopLoop (popFuel st) { st with numEvents := st.numEvents - 1 } p f).map
        (fun r => (some r.1, r.2.1, r.2.2.1, r.2.2.2)) := by
  simp [corePop, h]

theorem corePop_acc (st : CoreState) (p f : Nat) :
    corePop st p f = (corePop st 0 0).map
      (fun r => (r.1, p + r.2.1, f + r.2.2.1, r.2.2.2)) := by
  by_cases h : st.numEvents = 0
  · simp [corePop_empty h]
  · rw [corePop_pos h, corePop_pos h, corePopLoop_acc _ _ p f]
    cases corePopLoop (popFuel st) { st with numEvents := st.numEvents - 1 } 0 0 <;> simp

/-! ### Arithmetic helpers for the scan argument -/

theorem lt_div_add_one_mul (a b : Nat) (hb : 0 < b) : a < (a / b + 1) * b := by
  have h1 := Nat.div_add_mod a b
  have h2 := Nat.mod_lt a hb
  have h3 : (a / b + 1) * b = b * (a / b) + b := by ring
  omega

theorem getD_mem {l : List (List Event)} {i : Nat} (h : i < l.length) :
    l.getD i [] ∈ l := by
  simp [List.getD_eq_getElem?_getD, List.getElem?_eq_getElem h]

/-- Decomposition of `nextYearStart` as a positive multiple of the year
length. -/
theorem year_decomp {st : CoreState}
    (halign : st.nextYearStart % yearLen st = 0)
    (hypos : yearLen st ≤ st.nextYearStart) :
    ∃ k, 1 ≤ k ∧ st.nextYearStart = yearLen st * k := by
  obtain ⟨k, hk⟩ := Nat.dvd_of_mod_eq_zero halign
  have hylpos : 0 < yearLen st := by unfold yearLen; omega
  refine ⟨k, ?_, hk⟩
  by_contra hlt
  have : k = 0 := by omega
  subst this
  simp at hk
  omega

/-- When the head of the current bin belongs to the current year, it is a
globally minimal-time stored event: all other current-year events sit in the
same bin (behind it, by sortedness) or in later bins of this year, and
everything else belongs to a later year. -/
theorem head_le_all {st : CoreState} (hg : Geom st) (hsl : Slotted st)
    (hsort : SortedBins st)
    (halign : st.nextYearStart % yearLen st = 0)
    (hypos : yearLen st ≤ st.nextYearStart)
    (hefloor : ∀ x ∈ st.bins.flatten, scanFloor st ≤ x.time)
    {e : Event} {rest : List Event}
    (hbin : st.bins.getD st.currBin [] = e :: rest)
    (hcur : e.time < st.nextYearStart) :
    ∀ x ∈ st.bins.flatten, e.time ≤ x.time := by
  obtain ⟨k, hk1, hk⟩ := year_decomp halign hypos
  have hylpos : 0 < yearLen st := by unfold yearLen; omega
  have hbspos : 0 < st.binSize := hg.bs_pos
  have hnys : st.nextYearStart = yearLen st * (k - 1) + yearLen st := by
    have h6 : yearLen st * k = yearLen st * (k - 1) + yearLen st := by
      have h5 : k = (k - 1) + 1 := by omega
      calc yearLen st * k = yearLen st * ((k - 1) + 1) := by rw [← h5]
        _ = yearLen st * (k - 1) + yearLen st := by ring
    rw [hk, h6]
  set k0 := k - 1 with hk0
  have hfloor_eq : scanFloor st = yearLen st * k0 + st.currBin * st.binSize := by
    unfold scanFloor
    omega
  have he_mem : e ∈ st.bins.flatten := by
    refine @mem_getD_flatten _ st.currBin _ ?_
    rw [hbin]
    exact List.mem_cons_self e rest
  have hefl_e : yearLen st * k0 + st.currBin * st.binSize ≤ e.time := by
    rw [← hfloor_eq]; exact hefloor e he_mem
  have hcur2 : e.time < yearLen st * k0 + yearLen st := by omega
  have slot_e : e.time % yearLen st / st.binSize = st.currBin := by
    have := hsl st.currBin e (by rw [hbin]; exact List.mem_cons_self e rest)
    rwa [getSlot_arith hg] at this
  have hediv : e.time / yearLen st = k0 := by
    refine Nat.div_eq_of_lt_le ?_ ?_
    · calc k0 * yearLen st = yearLen st * k0 := by ring
        _ ≤ e.time := by omega
    · calc e.time < yearLen st * k0 + yearLen st := hcur2
        _ = (k0 + 1) * yearLen st := by ring
  have hemod : e.time % yearLen st = e.time - yearLen st * k0 := by
    have := Nat.div_add_mod e.time (yearLen st)
    rw [hediv] at this
    omega
  have heml : st.currBin * st.binSize ≤ e.time % yearLen st := by
    calc st.currBin * st.binSize = e.time % yearLen st / st.binSize * st.binSize := by
          rw [slot_e]
      _ ≤ e.time % yearLen st := Nat.div_mul_le_self _ _
  have hemu : e.time % yearLen st < (st.currBin + 1) * st.binSize := by
    have := lt_div_add_one_mul (e.time % yearLen st) st.binSize hbspos
    rwa [slot_e] at this
  intro x hx
  have hxfl : yearLen st * k0 + st.currBin * st.binSize ≤ x.time := by
    rw [← hfloor_eq]; exact hefloor x hx
  by_cases hxy : x.time < yearLen st * k0 + yearLen st
  · have hxdiv : x.time / yearLen st = k0 := by
      refine Nat.div_eq_of_lt_le ?_ ?_
      · calc k0 * yearLen st = yearLen st * k0 := by ring
          _ ≤ x.time := by omega
      · calc x.time < yearLen st * k0 + yearLen st := hxy
          _ = (k0 + 1) * yearLen st := by ring
    have hxmod : x.time % yearLen st = x.time - yearLen st * k0 := by
      have := Nat.div_add_mod x.time (yearLen st)
      rw [hxdiv] at this
      omega
    obtain ⟨i, hi_lt, hx_in⟩ := mem_flatten_getD hx
    have slot_x : x.time % yearLen st / st.binSize = i := by
      have := hsl i x hx_in
      rwa [getSlot_arith hg] at this
    have hi_ge : st.currBin ≤ i := by
      have h7 : st.currBin * st.binSize ≤ x.time % yearLen st := by omega
      calc st.currBin = st.currBin * st.binSize / st.binSize :=
            (Nat.mul_div_cancel st.currBin hbspos).symm
        _ ≤ x.time % yearLen st / st.binSize := Nat.div_le_div_right h7
        _ = i := slot_x
    by_cases hieq : i = st.currBin
    · subst hieq
      rw [hbin] at hx_in
      have hsorted_bin : List.Sorted timeLE (e :: rest) := by
        have h8 : st.currBin < st.bins.length := by rw [hg.len]; exact hg.cb
        have := hsort _ (getD_mem h8)
        rwa [hbin] at this
      rcases List.mem_cons.mp hx_in with rfl | hx2
      · exact le_refl _
      · exact (List.sorted_cons.mp hsorted_bin).1 x hx2
    · have hi_gt : st.currBin + 1 ≤ i := by omega
      have h9 : i * st.binSize ≤ x.time % yearLen st := by
        calc i * st.binSize = x.time % yearLen st / st.binSize * st.binSize := by
              rw [slot_x]
          _ ≤ x.time % yearLen st := Nat.div_mul_le_self _ _
      have h10 : (st.currBin + 1) * st.binSize ≤ i * st.binSize :=
        Nat.mul_le_mul_right _ hi_gt
      have h11 : (st.currBin + 1) * st.binSize =
          st.currBin * st.binSize + st.binSize := by ring
      omega
  · omega

theorem advanceBin_bins (st : CoreState) : (advanceBin st).bins = st.bins := by
  unfold advanceBin; split_ifs <;> rfl

theorem advanceBin_mask (st : CoreState) :
    (advanceBin st).moduloMask = st.moduloMask := by
  unfold advanceBin; split_ifs <;> rfl

theorem advanceBin_nb (st : CoreState) : (advanceBin st).numBins = st.numBins := by
  unfold advanceBin; split_ifs <;> rfl

theorem advanceBin_bs (st : CoreState) : (advanceBin st).binSize = st.binSize := by
  unfold advanceBin; split_ifs <;> rfl

theorem advanceBin_lp (st : CoreState) :
    (advanceBin st).lastPopped = st.lastPopped := by
  unfold advanceBin; split_ifs <;> rfl

theorem advanceBin_ny_le (st : CoreState) :
    st.nextYearStart ≤ (advanceBin st).nextYearStart := by
  unfold advanceBin; split_ifs
  · show st.nextYearStart ≤ st.nextYearStart + (st.moduloMask + 1); omega
  · exact le_refl _

theorem advanceBin_target (st : CoreState) (m : Nat) :
    targetPos (advanceBin st) m = targetPos st m := by
  unfold advanceBin; split_ifs <;> rfl

theorem advanceBin_slotted {st : CoreState} (h : Slotted st) :
    Slotted (advanceBin st) := by
  unfold advanceBin; split_ifs <;> exact h

theorem advanceBin_sorted {st : CoreState} (h : SortedBins st) :
    SortedBins (advanceBin st) := by
  unfold advanceBin; split_ifs <;> exact h

theorem advanceBin_update (st : CoreState) (cb2 ny2 t : Nat) (rest : List Event) :
    { advanceBin st with
      bins := (advanceBin st).bins.set cb2 rest
      currBin := cb2
      nextYearStart := ny2
      lastPopped := t } =
    { st with
      bins := st.bins.set cb2 rest
      currBin := cb2
      nextYearStart := ny2
      lastPopped := t } := by
  unfold advanceBin; split_ifs <;> rfl

theorem decomp_unique {a1 c1 a2 c2 nb : Nat} (h : a1 * nb + c1 = a2 * nb + c2)
    (h1 : c1 < nb) (h2 : c2 < nb) : a1 = a2 ∧ c1 = c2 := by
  have e1 : (a1 * nb + c1) / nb = a1 := by
    refine Nat.div_eq_of_lt_le (by omega) ?_
    have : (a1 + 1) * nb = a1 * nb + nb := by ring
    omega
  have e2 : (a2 * nb + c2) / nb = a2 := by
    refine Nat.div_eq_of_lt_le (by omega) ?_
    have : (a2 + 1) * nb = a2 * nb + nb := by ring
    omega
  rw [h] at e1
  rw [e2] at e1
  constructor
  · omega
  · have : a1 * nb = a2 * nb := by rw [e1]
    omega

/-- While no event is behind the scan floor, the floor never exceeds the
target position of the globally minimal event. -/
theorem pos_le_target {st : CoreState} {m : Nat} (hg : Geom st)
    (halign : st.nextYearStart % yearLen st = 0)
    (hypos : yearLen st ≤ st.nextYearStart)
    (hm : scanFloor st ≤ m) : posOf st ≤ targetPos st m := by
  obtain ⟨k, hk1, hk⟩ := year_decomp halign hypos
  have hylpos : 0 < yearLen st := by unfold yearLen; omega
  have hbspos : 0 < st.binSize := hg.bs_pos
  have hnys : st.nextYearStart = yearLen st * (k - 1) + yearLen st := by
    have h6 : yearLen st * k = yearLen st * (k - 1) + yearLen st := by
      have h5 : k = (k - 1) + 1 := by omega
      calc yearLen st * k = yearLen st * ((k - 1) + 1) := by rw [← h5]
        _ = yearLen st * (k - 1) + yearLen st := by ring
    rw [hk, h6]
  set k0 := k - 1 with hk0
  have hq : st.nextYearStart / yearLen st = k := by
    rw [hk]; exact Nat.mul_div_cancel_left k hylpos
  have hpos : posOf st = k0 * st.numBins + st.currBin := by
    unfold posOf
    rw [hq]
  have hfloor_eq : scanFloor st = yearLen st * k0 + st.currBin * st.binSize := by
    unfold scanFloor
    omega
  rw [hpos]
  unfold targetPos
  by_cases hmy : m < yearLen st * k0 + yearLen st
  · have hmdiv : m / yearLen st = k0 := by
      refine Nat.div_eq_of_lt_le ?_ ?_
      · calc k0 * yearLen st = yearLen st * k0 := by ring
          _ ≤ m := by omega
      · calc m < yearLen st * k0 + yearLen st := hmy
          _ = (k0 + 1) * yearLen st := by ring
    have hmmod : m % yearLen st = m - yearLen st * k0 := by
      have := Nat.div_add_mod m (yearLen st)
      rw [hmdiv] at this
      omega
    have hslot_ge : st.currBin ≤ m % yearLen st / st.binSize := by
      have h7 : st.currBin * st.binSize ≤ m % yearLen st := by omega
      calc st.currBin = st.currBin * st.binSize / st.binSize :=
            (Nat.mul_div_cancel st.currBin hbspos).symm
        _ ≤ m % yearLen st / st.binSize := Nat.div_le_div_right h7
    rw [hmdiv]
    omega
  · have h8 : (k0 + 1) * yearLen st ≤ m := by
      have : (k0 + 1) * yearLen st = yearLen st * k0 + yearLen st := by ring
      omega
    have hmdiv : k0 + 1 ≤ m / yearLen st :=
      (Nat.le_div_iff_mul_le hylpos).mpr h8
    have h9 : (k0 + 1) * st.numBins ≤ m / yearLen st * st.numBins :=
      Nat.mul_le_mul_right _ hmdiv
    have h10 : (k0 + 1) * st.numBins = k0 * st.numBins + st.numBins := by ring
    have h12 := hg.cb
    have h11 : k0 * st.numBins + st.currBin ≤ m / yearLen st * st.numBins := by
      omega
    calc k0 * st.numBins + st.currBin ≤ m / yearLen st * st.numBins := h11
      _ ≤ m / yearLen st * st.numBins + m % yearLen st / st.binSize :=
        Nat.le_add_right _ _

/-- When the current bin is empty or holds only future-year events, every
stored event also clears the floor advanced by one bin width. -/
theorem efloor_step {st : CoreState} (hg : Geom st) (hsl : Slotted st)
    (hsort : SortedBins st)
    (halign : st.nextYearStart % yearLen st = 0)
    (hypos : yearLen st ≤ st.nextYearStart)
    (hefloor : ∀ x ∈ st.bins.flatten, scanFloor st ≤ x.time)
    (hblock : ∀ e rest, st.bins.getD st.currBin [] = e :: rest →
      ¬ e.time < st.nextYearStart) :
    ∀ x ∈ st.bins.flatten, scanFloor st + st.binSize ≤ x.time := by
  obtain ⟨k, hk1, hk⟩ := year_decomp halign hypos
  have hylpos : 0 < yearLen st := by unfold yearLen; omega
  have hbspos : 0 < st.binSize := hg.bs_pos
  have hnys : st.nextYearStart = yearLen st * (k - 1) + yearLen st := by
    have h6 : yearLen st * k = yearLen st * (k - 1) + yearLen st := by
      have h5 : k = (k - 1) + 1 := by omega
      calc yearLen st * k = yearLen st * ((k - 1) + 1) := by rw [← h5]
        _ = yearLen st * (k - 1) + yearLen st := by ring
    rw [hk, h6]
  set k0 := k - 1 with hk0
  have hfloor_eq : scanFloor st = yearLen st * k0 + st.currBin * st.binSize := by
    unfold scanFloor
    omega
  intro x hx
  by_contra hcon
  push_neg at hcon
  have hxfl : scanFloor st ≤ x.time := hefloor x hx
  have hcb1 : (st.currBin + 1) * st.binSize ≤ st.numBins * st.binSize :=
    Nat.mul_le_mul_right _ hg.cb
  have hylbs : st.numBins * st.binSize = yearLen st := by
    rw [hg.yl]; ring
  have hring : (st.currBin + 1) * st.binSize =
      st.currBin * st.binSize + st.binSize := by ring
  have hxy : x.time < yearLen st * k0 + yearLen st := by omega
  have hxdiv : x.time / yearLen st = k0 := by
    refine Nat.div_eq_of_lt_le ?_ ?_
    · calc k0 * yearLen st = yearLen st * k0 := by ring
        _ ≤ x.time := by omega
    · calc x.time < yearLen st * k0 + yearLen st := hxy
        _ = (k0 + 1) * yearLen st := by ring
  have hxmod : x.time % yearLen st = x.time - yearLen st * k0 := by
    have := Nat.div_add_mod x.time (yearLen st)
    rw [hxdiv] at this
    omega
  have hslot_x : x.time % yearLen st / st.binSize = st.currBin := by
    refine Nat.div_eq_of_lt_le (by omega) (by omega)
  obtain ⟨i, hi_lt, hx_in⟩ := mem_flatten_getD hx
  have hslot_x2 : x.time % yearLen st / st.binSize = i := by
    have := hsl i x hx_in
    rwa [getSlot_arith hg] at this
  have hieq : i = st.currBin := by rw [← hslot_x2, hslot_x]
  rw [hieq] at hx_in
  cases hbin2 : st.bins.getD st.currBin [] with
  | nil => rw [hbin2] at hx_in; cases hx_in
  | cons e0 rest0 =>
    have hblocked := hblock e0 rest0 hbin2
    rw [hbin2] at hx_in
    have hsorted_bin : List.Sorted timeLE (e0 :: rest0) := by
      have h8 : st.currBin < st.bins.length := by rw [hg.len]; exact hg.cb
      have := hsort _ (getD_mem h8)
      rwa [hbin2] at this
    have he0_le : e0.time ≤ x.time := by
      rcases List.mem_cons.mp hx_in with rfl | hx2
      · exact le_refl _
      · exact (List.sorted_cons.mp hsorted_bin).1 x hx2
    have : e0.time < st.nextYearStart := by omega
    exact hblocked this

/-- If the current bin is empty or holds only future-year events, the scan
position has not yet reached the target position of the minimal event. -/
theorem target_ne_of_blocked {st : CoreState} {m : Nat} (hg : Geom st)
    (hsl : Slotted st) (hsort : SortedBins st)
    (halign : st.nextYearStart % yearLen st = 0)
    (hypos : yearLen st ≤ st.nextYearStart)
    (hex : ∃ ev, ev ∈ st.bins.flatten ∧ ev.time = m)
    (hmin : ∀ x ∈ st.bins.flatten, m ≤ x.time)
    (hblock : ∀ e rest, st.bins.getD st.currBin [] = e :: rest →
      ¬ e.time < st.nextYearStart) :
    posOf st ≠ targetPos st m := by
  intro heq
  obtain ⟨k, hk1, hk⟩ := year_decomp halign hypos
  have hylpos : 0 < yearLen st := by unfold yearLen; omega
  have hbspos : 0 < st.binSize := hg.bs_pos
  have hq : st.nextYearStart / yearLen st = k := by
    rw [hk]; exact Nat.mul_div_cancel_left k hylpos
  set k0 := k - 1 with hk0
  have hnys : st.nextYearStart = yearLen st * k0 + yearLen st := by
    have h6 : yearLen st * k = yearLen st * k0 + yearLen st := by
      have h5 : k = k0 + 1 := by omega
      calc yearLen st * k = yearLen st * (k0 + 1) := by rw [← h5]
        _ = yearLen st * k0 + yearLen st := by ring
    rw [hk, h6]
  have hpos : posOf st = k0 * st.numBins + st.currBin := by
    unfold posOf
    rw [hq]
  have hslotm_lt : m % yearLen st / st.binSize < st.numBins := by
    have h1 : m % yearLen st < st.binSize * st.numBins := by
      have := Nat.mod_lt m hylpos
      have h2 : yearLen st = st.binSize * st.numBins := hg.yl
      omega
    exact Nat.div_lt_of_lt_mul h1
  have heq2 : k0 * st.numBins + st.currBin =
      m / yearLen st * st.numBins + m % yearLen st / st.binSize := by
    rw [← hpos, heq]; rfl
  obtain ⟨hdiv_eq, hslot_eq⟩ := decomp_unique heq2 hg.cb hslotm_lt
  obtain ⟨ev, hev_mem, hev_time⟩ := hex
  obtain ⟨i, hi_lt, hev_in⟩ := mem_flatten_getD hev_mem
  have hslot_ev : m % yearLen st / st.binSize = i := by
    have := hsl i ev hev_in
    rw [getSlot_arith hg, hev_time] at this
    exact this
  have hicb : i = st.currBin := by omega
  rw [hicb] at hev_in
  cases hbin2 : st.bins.getD st.currBin [] with
  | nil => rw [hbin2] at hev_in; cases hev_in
  | cons e0 rest0 =>
    have hblocked := hblock e0 rest0 hbin2
    rw [hbin2] at hev_in
    have hsorted_bin : List.Sorted timeLE (e0 :: rest0) := by
      have h8 : st.currBin < st.bins.length := by rw [hg.len]; exact hg.cb
      have := hsort _ (getD_mem h8)
      rwa [hbin2] at this
    have he0_le : e0.time ≤ m := by
      rcases List.mem_cons.mp hev_in with h9 | hx2
      · rw [← h9]; omega
      · have h13 : e0.time ≤ ev.time := (List.sorted_cons.mp hsorted_bin).1 ev hx2
        omega
    have he0_mem : e0 ∈ st.bins.flatten := by
      refine @mem_getD_flatten _ st.currBin _ ?_
      rw [hbin2]
      exact List.mem_cons_self e0 rest0
    have he0_eq : e0.time = m := le_antisymm he0_le (hmin e0 he0_mem)
    have hm_lt_ny : m < st.nextYearStart := by
      have h10 := Nat.div_add_mod m (yearLen st)
      have h11 := Nat.mod_lt m hylpos
      have h12 : yearLen st * (m / yearLen st) = yearLen st * k0 := by
        rw [← hdiv_eq]
      omega
    exact hblocked (by omega)

/-- Main scan lemma: from a well-formed loop state holding an event of
globally minimal time `m`, the scan of `CalQCore::pop` returns within any
fuel exceeding the distance to that event's scan position, yielding an event
of time exactly `m` popped from the head of its bin, with `lastPopped` set
to `m` and `nextYearStart` advanced to the year in which the event fired. -/
theorem corePopLoop_finds_min :
    ∀ (fuel : Nat) (st : CoreState) (m p f : Nat),
      Geom st → Slotted st → SortedBins st →
      st.nextYearStart % yearLen st = 0 → yearLen st ≤ st.nextYearStart →
      (∀ x ∈ st.bins.flatten, scanFloor st ≤ x.time) →
      (∀ x ∈ st.bins.flatten, st.lastPopped ≤ x.time) →
      (∃ ev, ev ∈ st.bins.flatten ∧ ev.time = m) →
      (∀ x ∈ st.bins.flatten, m ≤ x.time) →
      targetPos st m - posOf st < fuel →
      ∃ e rest p2 f2 cb2 ny2,
        corePopLoop fuel st p f = some (e, p2, f2,
          { st with
            bins := st.bins.set cb2 rest
            currBin := cb2
            nextYearStart := ny2
            lastPopped := e.time }) ∧
        st.bins.getD cb2 [] = e :: rest ∧ e.time = m ∧ cb2 < st.numBins ∧
        st.nextYearStart ≤ ny2 ∧ ny2 % (st.moduloMask + 1) = 0 ∧
        st.moduloMask + 1 ≤ ny2 ∧ m < ny2 ∧
        ny2 - (st.moduloMask + 1) + cb2 * st.binSize ≤ m := by
  intro fuel
  induction fuel with
  | zero =>
    intro st m p f hg hsl hsort halign hypos hefloor hlp hex hmin hfa
    omega
  | succ fuel ih =>
    intro st m p f hg hsl hsort halign hypos hefloor hlp hex hmin hfa
    have hm_floor : scanFloor st ≤ m := by
      obtain ⟨ev, hev_mem, hev_time⟩ := hex
      have := hefloor ev hev_mem
      omega
    cases hbin : st.bins.getD st.currBin [] with
    | nil =>
      have hblock : ∀ e rest, st.bins.getD st.currBin [] = e :: rest →
          ¬ e.time < st.nextYearStart := by
        intro e rest heq2
        rw [hbin] at heq2
        cases heq2
      have hne := target_ne_of_blocked hg hsl hsort halign hypos hex hmin hblock
      have hle := pos_le_target hg halign hypos hm_floor
      have hlt : posOf st < targetPos st m := lt_of_le_of_ne hle hne
      have hstep := efloor_step hg hsl hsort halign hypos hefloor hblock
      obtain ⟨e, rest, p2, f2, cb2, ny2, heqn, hbinr, hm, hcb2, hny_le, hnymod,
          hnyge, hmlt, hfloor2⟩ :=
        ih (advanceBin st) m (p + 1) f (advanceBin_geom hg) (advanceBin_slotted hsl)
          (advanceBin_sorted hsort) (advanceBin_align halign) (advanceBin_ypos hypos)
          (by
            intro x hx
            rw [advanceBin_bins] at hx
            rw [advanceBin_scanFloor hg hypos]
            exact hstep x hx)
          (by
            intro x hx
            rw [advanceBin_bins] at hx
            rw [advanceBin_lp]
            exact hlp x hx)
          (by rw [advanceBin_bins]; exact hex)
          (by rw [advanceBin_bins]; exact hmin)
          (by rw [advanceBin_target, advanceBin_pos hypos]; omega)
      rw [advanceBin_bins] at hbinr
      rw [advanceBin_nb] at hcb2
      rw [advanceBin_mask] at hnymod hnyge hfloor2
      rw [advanceBin_bs] at hfloor2
      have hny_le2 : st.nextYearStart ≤ ny2 := le_trans (advanceBin_ny_le st) hny_le
      refine ⟨e, rest, p2, f2, cb2, ny2, ?_, hbinr, hm, hcb2, hny_le2, hnymod,
        hnyge, hmlt, hfloor2⟩
      rw [corePopLoop_succ_nil _ _ _ _ hbin, heqn, advanceBin_update]
    | cons e0 rest0 =>
      by_cases hfut : e0.time < st.nextYearStart
      · have he0_mem : e0 ∈ st.bins.flatten := by
          refine @mem_getD_flatten _ st.currBin _ ?_
          rw [hbin]
          exact List.mem_cons_self e0 rest0
        have hassert : st.lastPopped ≤ e0.time := hlp e0 he0_mem
        have he_min_all := head_le_all hg hsl hsort halign hypos hefloor hbin hfut
        have hm_eq : e0.time = m := by
          obtain ⟨ev, hev_mem, hev_time⟩ := hex
          have h1 := he_min_all ev hev_mem
          have h2 := hmin e0 he0_mem
          omega
        refine ⟨e0, rest0, p, f, st.currBin, st.nextYearStart, ?_, hbin, hm_eq,
          hg.cb, le_refl _, halign, hypos, by omega, ?_⟩
        · rw [corePopLoop_succ_cons _ _ _ _ _ _ hbin, if_pos hfut, if_pos hassert]
        · have := hefloor e0 he0_mem
          unfold scanFloor yearLen at this
          omega
      · have hblock : ∀ e rest, st.bins.getD st.currBin [] = e :: rest →
            ¬ e.time < st.nextYearStart := by
          intro e rest heq2
          rw [hbin] at heq2
          injection heq2 with h1 h2
          rw [← h1]
          exact hfut
        have hne := target_ne_of_blocked hg hsl hsort halign hypos hex hmin hblock
        have hle := pos_le_target hg halign hypos hm_floor
        have hlt : posOf st < targetPos st m := lt_of_le_of_ne hle hne
        have hstep := efloor_step hg hsl hsort halign hypos hefloor hblock
        obtain ⟨e, rest, p2, f2, cb2, ny2, heqn, hbinr, hm, hcb2, hny_le, hnymod,
            hnyge, hmlt, hfloor2⟩ :=
          ih (advanceBin st) m (p + 1) (f + 1) (advanceBin_geom hg)
            (advanceBin_slotted hsl) (advanceBin_sorted hsort)
            (advanceBin_align halign) (advanceBin_ypos hypos)
            (by
              intro x hx
              rw [advanceBin_bins] at hx
              rw [advanceBin_scanFloor hg hypos]
              exact hstep x hx)
            (by
              intro x hx
              rw [advanceBin_bins] at hx
              rw [advanceBin_lp]
              exact hlp x hx)
            (by rw [advanceBin_bins]; exact hex)
            (by rw [advanceBin_bins]; exact hmin)
            (by rw [advanceBin_target, advanceBin_pos hypos]; omega)
        rw [advanceBin_bins] at hbinr
        rw [advanceBin_nb] at hcb2
        rw [advanceBin_mask] at hnymod hnyge hfloor2
        rw [advanceBin_bs] at hfloor2
        have hny_le2 : st.nextYearStart ≤ ny2 := le_trans (advanceBin_ny_le st) hny_le
        refine ⟨e, rest, p2, f2, cb2, ny2, ?_, hbinr, hm, hcb2, hny_le2, hnymod,
          hnyge, hmlt, hfloor2⟩
        rw [corePopLoop_succ_cons _ _ _ _ _ _ hbin, if_neg hfut, heqn,
          advanceBin_update]

/-- Specification of `CalQCore::pop` on a non-empty invariant-respecting
state: it succeeds, returns a stored event of globally minimal time, removes
exactly that event, sets `lastPopped` to its time, and preserves the
invariant. -/
theorem corePop_spec {st : CoreState} (h : Inv st) (hne : st.numEvents ≠ 0) :
    ∃ e p2 f2 st2,
      corePop st 0 0 = some (some e, p2, f2, st2) ∧ Inv st2 ∧
        e ∈ st.bins.flatten ∧ (∀ x ∈ st.bins.flatten, e.time ≤ x.time) ∧
        st2.lastPopped = e.time ∧ st.lastPopped ≤ e.time ∧
        (↑st.bins.flatten : Multiset Event) = e ::ₘ ↑st2.bins.flatten ∧
        st2.numEvents = st.numEvents - 1 ∧
        st2.numBins = st.numBins ∧ st2.binSize = st.binSize ∧
        st2.divideShift = st.divideShift ∧ st2.moduloMask = st.moduloMask ∧
        st2.logTableSize = st.logTableSize := by
  have hylpos : 0 < yearLen st := by unfold yearLen; omega
  have hbspos : 0 < st.binSize := h.geom.bs_pos
  have hnbpos : 0 < st.numBins := h.geom.nb_pos
  have hflat_ne : st.bins.flatten ≠ [] := by
    intro hcon
    rw [h.count, hcon] at hne
    exact hne rfl
  obtain ⟨em, hem_mem, hem_min⟩ := exists_min_event _ hflat_ne
  set m := em.time with hm_def
  have hfuel : targetPos { st with numEvents := st.numEvents - 1 } m -
      posOf { st with numEvents := st.numEvents - 1 } < popFuel st := by
    have hmmax : m ≤ maxTimeOf st := by
      refine le_foldr_max ?_
      exact List.mem_map_of_mem Event.time hem_mem
    have hdivle : m / yearLen st ≤ maxTimeOf st / yearLen st :=
      Nat.div_le_div_right hmmax
    have hslot_lt : m % yearLen st / st.binSize < st.numBins := by
      have h1 : m % yearLen st < st.binSize * st.numBins := by
        have := Nat.mod_lt m hylpos
        have h2 : yearLen st = st.binSize * st.numBins := h.geom.yl
        omega
      exact Nat.div_lt_of_lt_mul h1
    have htgt : targetPos { st with numEvents := st.numEvents - 1 } m =
        m / yearLen st * st.numBins + m % yearLen st / st.binSize := rfl
    have hpf : popFuel st = (maxTimeOf st / yearLen st + 2) * st.numBins + 1 := rfl
    have hmul : m / yearLen st * st.numBins ≤
        maxTimeOf st / yearLen st * st.numBins :=
      Nat.mul_le_mul_right _ hdivle
    have hring : (maxTimeOf st / yearLen st + 2) * st.numBins =
        maxTimeOf st / yearLen st * st.numBins + 2 * st.numBins := by ring
    have : targetPos { st with numEvents := st.numEvents - 1 } m -
        posOf { st with numEvents := st.numEvents - 1 } ≤
        targetPos { st with numEvents := st.numEvents - 1 } m := Nat.sub_le _ _
    omega
  obtain ⟨e, rest, p2, f2, cb2, ny2, heq, hbinr, hm, hcb2, hny_le, hnymod,
      hnyge, hmlt, hfloor2⟩ :=
    corePopLoop_finds_min (popFuel st) { st with numEvents := st.numEvents - 1 } m 0 0
      ⟨h.geom.bs, h.geom.nb, h.geom.mask, h.geom.len, h.geom.cb⟩
      h.slotted h.sorted h.align h.ypos
      (fun x hx => le_trans h.floor (h.bound x hx))
      h.bound ⟨em, hem_mem, rfl⟩ hem_min hfuel
  simp only at hbinr hcb2 hny_le hnymod hnyge hfloor2
  have hcb2len : cb2 < st.bins.length := by rw [h.geom.len]; exact hcb2
  have hms : (↑st.bins.flatten : Multiset Event) =
      e ::ₘ ↑(st.bins.set cb2 rest).flatten := by
    have hadd := flatten_set_add st.bins cb2 rest hcb2len
    have hcons : (↑(st.bins.getD cb2 []) : Multiset Event) = e ::ₘ ↑rest := by
      rw [hbinr]; rfl
    have key : (↑(st.bins.set cb2 rest).flatten : Multiset Event) +
        (e ::ₘ (↑rest : Multiset Event)) =
        (↑st.bins.flatten : Multiset Event) + ↑rest := by
      rw [← hcons]; exact hadd
    have key2 : ((e ::ₘ (↑(st.bins.set cb2 rest).flatten : Multiset Event))) + ↑rest =
        (↑st.bins.flatten : Multiset Event) + ↑rest := by
      rw [← key, ← Multiset.singleton_add, ← Multiset.singleton_add]
      abel
    exact (add_right_cancel key2).symm
  have hsorted_bin : List.Sorted timeLE (e :: rest) := by
    have := h.sorted _ (getD_mem hcb2len)
    rwa [hbinr] at this
  have hlen2 : st.bins.flatten.length = (st.bins.set cb2 rest).flatten.length + 1 := by
    have := congrArg Multiset.card hms
    simpa using this
  refine ⟨e, p2, f2,
    { st with
      bins := st.bins.set cb2 rest
      numEvents := st.numEvents - 1
      currBin := cb2
      nextYearStart := ny2
      lastPopped := e.time }, ?_, ?_, ?_, ?_, rfl, ?_, hms, rfl, rfl, rfl, rfl, rfl, rfl⟩
  · rw [corePop_pos hne, heq]
    rfl
  · refine ⟨⟨h.geom.bs, h.geom.nb, h.geom.mask, ?_, hcb2⟩, ?_, ?_, ?_, ?_, ?_, ?_, ?_, ?_⟩
    · show (st.bins.set cb2 rest).length = st.numBins
      rw [List.length_set, h.geom.len]
    · intro i x hx
      by_cases hi : cb2 = i
      · subst hi
        rw [getD_set_self _ _ _ hcb2len] at hx
        exact h.slotted cb2 x (by rw [hbinr]; exact List.mem_cons_of_mem e hx)
      · rw [getD_set_ne _ _ hi] at hx
        exact h.slotted i x hx
    · intro l hl
      rcases List.mem_or_eq_of_mem_set hl with hl2 | rfl
      · exact h.sorted l hl2
      · exact (List.sorted_cons.mp hsorted_bin).2
    · show st.numEvents - 1 = (st.bins.set cb2 rest).flatten.length
      rw [h.count] at hne ⊢
      omega
    · intro x hx
      show e.time ≤ x.time
      have hxin : x ∈ st.bins.flatten := by
        have h1 : (x : Event) ∈ (↑st.bins.flatten : Multiset Event) := by
          rw [hms]
          exact Multiset.mem_cons_of_mem (by simpa using hx)
        simpa using h1
      rw [hm]
      exact hem_min x hxin
    · exact hnymod
    · exact hnyge
    · show e.time < ny2
      omega
    · show ny2 - (st.moduloMask + 1) + cb2 * st.binSize ≤ e.time
      omega
  · exact @mem_getD_flatten _ cb2 _ (by rw [hbinr]; exact List.mem_cons_self e rest)
  · intro x hx
    rw [hm]
    exact hem_min x hx
  · have := h.bound e (@mem_getD_flatten _ cb2 _
      (by rw [hbinr]; exact List.mem_cons_self e rest))
    exact this

/-! ### Geometry and slotting are preserved by all operations -/

theorem corePush_GS {st st2 : CoreState} {e : Event} (hg : Geom st)
    (hsl : Slotted st) (hp : corePush st e = some st2) :
    Geom st2 ∧ Slotted st2 := by
  obtain ⟨-, rfl⟩ := corePush_some_eq hp
  set i := getSlot st e.time with hi
  have hilt : i < st.bins.length := by
    rw [hg.len]; exact getSlot_lt hg e.time
  constructor
  · refine ⟨hg.bs, hg.nb, hg.mask, ?_, hg.cb⟩
    show (st.bins.set i _).length = st.numBins
    rw [List.length_set, hg.len]
  · intro j x hx
    by_cases hj : i = j
    · subst hj
      rw [getD_set_self _ _ _ hilt] at hx
      rw [listPush_eq_orderedInsert] at hx
      rcases (List.mem_orderedInsert timeLE).mp hx with rfl | hx2
      · rfl
      · exact hsl i x hx2
    · rw [getD_set_ne _ _ hj] at hx
      exact hsl j x hx

theorem corePopLoop_GS :
    ∀ (fuel : Nat) (st : CoreState) (p f : Nat) {e : Event} {p2 f2 : Nat}
      {st2 : CoreState}, Geom st → Slotted st →
      corePopLoop fuel st p f = some (e, p2, f2, st2) →
      Geom st2 ∧ Slotted st2 := by
  intro fuel
  induction fuel with
  | zero =>
    intro st p f e p2 f2 st2 hg hsl h
    simp [corePopLoop] at h
  | succ fuel ih =>
    intro st p f e p2 f2 st2 hg hsl h
    cases hbin : st.bins.getD st.currBin [] with
    | nil =>
      rw [corePopLoop_succ_nil _ _ _ _ hbin] at h
      exact ih _ _ _ (advanceBin_geom hg) (advanceBin_slotted hsl) h
    | cons e0 rest =>
      rw [corePopLoop_succ_cons _ _ _ _ _ _ hbin] at h
      by_cases hfut : e0.time < st.nextYearStart
      · rw [if_pos hfut] at h
        by_cases hassert : st.lastPopped ≤ e0.time
        · rw [if_pos hassert] at h
          simp only [Option.some.injEq, Prod.mk.injEq] at h
          obtain ⟨rfl, -, -, rfl⟩ := h
          have hcblen : st.currBin < st.bins.length := by
            rw [hg.len]; exact hg.cb
          constructor
          · refine ⟨hg.bs, hg.nb, hg.mask, ?_, hg.cb⟩
            show (st.bins.set st.currBin rest).length = st.numBins
            rw [List.length_set, hg.len]
          · intro j x hx
            by_cases hj : st.currBin = j
            · subst hj
              rw [getD_set_self _ _ _ hcblen] at hx
              exact hsl st.currBin x (by rw [hbin]; exact List.mem_cons_of_mem e0 hx)
            · rw [getD_set_ne _ _ hj] at hx
              exact hsl j x hx
        · rw [if_neg hassert] at h
          cases h
      · rw [if_neg hfut] at h
        exact ih _ _ _ (advanceBin_geom hg) (advanceBin_slotted hsl) h

theorem corePop_GS {st : CoreState} {r : Option Event × Nat × Nat × CoreState}
    (hg : Geom st) (hsl : Slotted st) (h : corePop st 0 0 = some r) :
    Geom r.2.2.2 ∧ Slotted r.2.2.2 := by
  by_cases hz : st.numEvents = 0
  · rw [corePop_empty hz] at h
    injection h with h2
    rw [← h2]
    exact ⟨hg, hsl⟩
  · rw [corePop_pos hz] at h
    cases hloop : corePopLoop (popFuel st) { st with numEvents := st.numEvents - 1 }
        0 0 with
    | none => rw [hloop] at h; cases h
    | some r0 =>
      rw [hloop] at h
      injection h with h2
      obtain ⟨e0, p0, f0, st0⟩ := r0
      have := corePopLoop_GS (popFuel st)
        { st with numEvents := st.numEvents - 1 } 0 0
        ⟨hg.bs, hg.nb, hg.mask, hg.len, hg.cb⟩ hsl hloop
      rw [← h2]
      exact this

theorem listRemove_spec (s : Event) (l : List Event) {b : Bool} {l2 : List Event}
    (h : listRemove s l = some (b, l2)) :
    (b = true → l2.length + 1 = l.length) ∧ (b = false → l2 = l) ∧
      (∀ x ∈ l2, x ∈ l) := by
  cases l with
  | nil =>
    simp only [listRemove, Option.some.injEq, Prod.mk.injEq] at h
    obtain ⟨rfl, rfl⟩ := h
    exact ⟨fun h2 => Bool.noConfusion h2, fun _ => rfl, fun x hx => hx⟩
  | cons root rest =>
    by_cases hroot : root = s
    · simp only [listRemove, if_pos hroot, Option.some.injEq, Prod.mk.injEq] at h
      obtain ⟨rfl, rfl⟩ := h
      exact ⟨fun _ => by simp, fun h2 => Bool.noConfusion h2,
        fun x hx => List.mem_cons_of_mem _ hx⟩
    · cases rest with
      | nil =>
        simp only [listRemove, if_neg hroot, Option.some.injEq, Prod.mk.injEq] at h
        obtain ⟨rfl, rfl⟩ := h
        exact ⟨fun h2 => Bool.noConfusion h2, fun _ => rfl, fun x hx => hx⟩
      | cons r rest2 =>
        by_cases hr : r = s
        · simp only [listRemove, if_neg hroot, if_pos hr, Option.some.injEq,
            Prod.mk.injEq] at h
          obtain ⟨rfl, rfl⟩ := h
          refine ⟨fun _ => by simp, fun h2 => Bool.noConfusion h2, ?_⟩
          intro x hx
          rcases List.mem_cons.mp hx with rfl | hx2
          · exact List.mem_cons_self _ _
          · exact List.mem_cons_of_mem _ (List.mem_cons_of_mem _ hx2)
        · simp only [listRemove, if_neg hroot, if_neg hr] at h
          cases h

theorem coreRemove_eq {st st2 : CoreState} {e : Event} {b : Bool}
    (h : coreRemove st e = some (b, st2)) :
    ∃ l2, listRemove e (st.bins.getD (getSlot st e.time) []) = some (b, l2) ∧
      st2 = { st with bins := st.bins.set (getSlot st e.time) l2 } := by
  unfold coreRemove at h
  cases hl : listRemove e (st.bins.getD (getSlot st e.time) []) with
  | none => rw [hl] at h; cases h
  | some r =>
    rw [hl] at h
    injection h with h2
    obtain ⟨b0, l2⟩ := r
    simp only [Prod.mk.injEq] at h2
    refine ⟨l2, ?_, h2.2.symm⟩
    rw [h2.1]

theorem coreRemove_GS {st st2 : CoreState} {e : Event} {b : Bool} (hg : Geom st)
    (hsl : Slotted st) (h : coreRemove st e = some (b, st2)) :
    Geom st2 ∧ Slotted st2 := by
  obtain ⟨l2, hl, rfl⟩ := coreRemove_eq h
  set i := getSlot st e.time with hi
  obtain ⟨-, -, hsub⟩ := listRemove_spec e _ hl
  have hilt : i < st.bins.length := by
    rw [hg.len]; exact getSlot_lt hg e.time
  constructor
  · refine ⟨hg.bs, hg.nb, hg.mask, ?_, hg.cb⟩
    show (st.bins.set i l2).length = st.numBins
    rw [List.length_set, hg.len]
  · intro j x hx
    by_cases hj : i = j
    · subst hj
      rw [getD_set_self _ _ _ hilt] at hx
      exact hsl i x (hsub x hx)
    · rw [getD_set_ne _ _ hj] at hx
      exact hsl j x hx

theorem runCore_GS :
    ∀ (ops : List Op) (st : CoreState) {popped : List Event} {stF : CoreState},
      Geom st → Slotted st → runCore st ops = some (popped, stF) →
      Geom stF ∧ Slotted stF := by
  intro ops
  induction ops with
  | nil =>
    intro st popped stF hg hsl h
    simp only [runCore, Option.some.injEq, Prod.mk.injEq] at h
    rw [← h.2]
    exact ⟨hg, hsl⟩
  | cons op ops ih =>
    intro st popped stF hg hsl h
    cases op with
    | push e =>
      simp only [runCore] at h
      cases hp : corePush st e with
      | none => rw [hp] at h; cases h
      | some st2 =>
        rw [hp] at h
        obtain ⟨hg2, hsl2⟩ := corePush_GS hg hsl hp
        exact ih st2 hg2 hsl2 h
    | pop =>
      simp only [runCore] at h
      cases hp : corePop st 0 0 with
      | none => rw [hp] at h; cases h
      | some r =>
        rw [hp] at h
        replace h : (runCore r.2.2.2 ops).map (fun out => (consOpt r.1 out.1, out.2)) =
            some (popped, stF) := h
        obtain ⟨hg2, hsl2⟩ := corePop_GS hg hsl hp
        cases hrun : runCore r.2.2.2 ops with
        | none => rw [hrun] at h; cases h
        | some out =>
          rw [hrun] at h
          injection h with h2
          obtain ⟨l, stF0⟩ := out
          simp only [Prod.mk.injEq] at h2
          rw [← h2.2]
          exact ih _ hg2 hsl2 hrun
    | remove e =>
      simp only [runCore] at h
      cases hp : coreRemove st e with
      | none => rw [hp] at h; cases h
      | some r =>
        rw [hp] at h
        obtain ⟨b, st2⟩ := r
        obtain ⟨hg2, hsl2⟩ := coreRemove_GS hg hsl hp
        exact ih st2 hg2 hsl2 h

/-! ### Pops return minima, and popped times grow monotonically -/

theorem popsMinimal_of_inv :
    ∀ (ops : List Op) (st : CoreState), Inv st → pushPopOnly ops = true →
      PopsMinimal st ops := by
  intro ops
  induction ops with
  | nil => intro st _ _; trivial
  | cons op ops ih =>
    intro st h hpp
    cases op with
    | push e =>
      intro st2 hp
      have hpp2 : pushPopOnly ops = true := by simpa [pushPopOnly] using hpp
      exact ih st2 (corePush_inv h hp).1 hpp2
    | pop =>
      intro r hr
      have hpp2 : pushPopOnly ops = true := by simpa [pushPopOnly] using hpp
      by_cases hz : st.numEvents = 0
      · rw [corePop_empty hz] at hr
        injection hr with hr2
        constructor
        · intro e he
          rw [← hr2] at he
          cases he
        · rw [← hr2]
          exact ih st h hpp2
      · obtain ⟨e, p2, f2, st2, heq, hinv2, hmem, hmin, -⟩ := corePop_spec h hz
        rw [heq] at hr
        injection hr with hr2
        constructor
        · intro e2 he2
          rw [← hr2] at he2
          injection he2 with he3
          rw [← he3]
          exact hmin
        · rw [← hr2]
          exact ih st2 hinv2 hpp2
    | remove e =>
      simp [pushPopOnly] at hpp

theorem runCore_chain :
    ∀ (ops : List Op) (st : CoreState) {popped : List Event} {stF : CoreState},
      Inv st → pushPopOnly ops = true → runCore st ops = some (popped, stF) →
      List.Chain (fun a b => a ≤ b) st.lastPopped (popped.map Event.time) := by
  intro ops
  induction ops with
  | nil =>
    intro st popped stF _ _ h
    simp only [runCore, Option.some.injEq, Prod.mk.injEq] at h
    rw [← h.1]
    exact List.Chain.nil
  | cons op ops ih =>
    intro st popped stF hinv hpp h
    cases op with
    | push e =>
      have hpp2 : pushPopOnly ops = true := by simpa [pushPopOnly] using hpp
      simp only [runCore] at h
      cases hp : corePush st e with
      | none => rw [hp] at h; cases h
      | some st2 =>
        rw [hp] at h
        obtain ⟨hinv2, -, hlp2, -⟩ := corePush_inv hinv hp
        have := ih st2 hinv2 hpp2 h
        rwa [hlp2] at this
    | pop =>
      have hpp2 : pushPopOnly ops = true := by simpa [pushPopOnly] using hpp
      simp only [runCore] at h
      cases hp : corePop st 0 0 with
      | none => rw [hp] at h; cases h
      | some r =>
        rw [hp] at h
        replace h : (runCore r.2.2.2 ops).map (fun out => (consOpt r.1 out.1, out.2)) =
            some (popped, stF) := h
        cases hrun : runCore r.2.2.2 ops with
        | none => rw [hrun] at h; cases h
        | some out =>
          rw [hrun] at h
          injection h with h2
          obtain ⟨l, stF0⟩ := out
          simp only [Prod.mk.injEq] at h2
          by_cases hz : st.numEvents = 0
          · rw [corePop_empty hz] at hp
            injection hp with hp2
            have hchain := ih st hinv hpp2 (by rw [← hp2] at hrun; exact hrun)
            rw [← h2.1]
            rw [← hp2]
            exact hchain
          · obtain ⟨e, p2, f2, st2, heq, hinv2, hmem, hmin, hlp_eq, hlp_le, -⟩ :=
              corePop_spec hinv hz
            rw [heq] at hp
            injection hp with hp2
            have hchain := ih st2 hinv2 hpp2 (by rw [← hp2] at hrun; exact hrun)
            rw [← h2.1, ← hp2]
            show List.Chain (fun a b => a ≤ b) st.lastPopped
              ((e :: l).map Event.time)
            refine List.Chain.cons hlp_le ?_
            rw [← hlp_eq]
            exact hchain
    | remove e =>
      simp [pushPopOnly] at hpp

/-! ### Event counting along runs -/

theorem corePush_numEvents {st st2 : CoreState} {e : Event}
    (h : corePush st e = some st2) : st2.numEvents = st.numEvents + 1 := by
  obtain ⟨-, rfl⟩ := corePush_some_eq h
  rfl

theorem corePop_numEvents {st : CoreState}
    {r : Option Event × Nat × Nat × CoreState}
    (hz : st.numEvents ≠ 0) (h : corePop st 0 0 = some r) :
    r.2.2.2.numEvents = st.numEvents - 1 := by
  rw [corePop_pos hz] at h
  cases hloop : corePopLoop (popFuel st) { st with numEvents := st.numEvents - 1 }
      0 0 with
  | none => rw [hloop] at h; cases h
  | some r0 =>
    rw [hloop] at h
    injection h with h2
    obtain ⟨e0, p0, f0, st0⟩ := r0
    have hfr := (corePopLoop_frame _ _ _ _ hloop).1
    rw [← h2]
    exact hfr

theorem runCore_count :
    ∀ (ops : List Op) (st : CoreState) {popped : List Event} {stF : CoreState},
      pushPopOnly ops = true → popsCovered st.numEvents ops = true →
      runCore st ops = some (popped, stF) →
      stF.numEvents + countPop ops = st.numEvents + countPush ops := by
  intro ops
  induction ops with
  | nil =>
    intro st popped stF _ _ h
    simp only [runCore, Option.some.injEq, Prod.mk.injEq] at h
    rw [← h.2]
    simp [countPush, countPop]
  | cons op ops ih =>
    intro st popped stF hpp hcov h
    cases op with
    | push e =>
      have hpp2 : pushPopOnly ops = true := by simpa [pushPopOnly] using hpp
      have hcov2 : popsCovered (st.numEvents + 1) ops = true := by
        simpa [popsCovered] using hcov
      simp only [runCore] at h
      cases hp : corePush st e with
      | none => rw [hp] at h; cases h
      | some st2 =>
        rw [hp] at h
        have hne := corePush_numEvents hp
        have := ih st2 hpp2 (by rw [hne]; exact hcov2) h
        rw [hne] at this
        simp only [countPush, countPop] at *
        omega
    | pop =>
      have hpp2 : pushPopOnly ops = true := by simpa [pushPopOnly] using hpp
      have hcov2 : st.numEvents ≠ 0 ∧ popsCovered (st.numEvents - 1) ops = true := by
        have := hcov
        simp only [popsCovered, Bool.and_eq_true, decide_eq_true_eq] at this
        exact this
      simp only [runCore] at h
      cases hp : corePop st 0 0 with
      | none => rw [hp] at h; cases h
      | some r =>
        rw [hp] at h
        replace h : (runCore r.2.2.2 ops).map (fun out => (consOpt r.1 out.1, out.2)) =
            some (popped, stF) := h
        cases hrun : runCore r.2.2.2 ops with
        | none => rw [hrun] at h; cases h
        | some out =>
          rw [hrun] at h
          injection h with h2
          obtain ⟨l, stF0⟩ := out
          simp only [Prod.mk.injEq] at h2
          have hne := corePop_numEvents hcov2.1 hp
          have := ih r.2.2.2 hpp2 (by rw [hne]; exact hcov2.2) hrun
          rw [hne] at this
          rw [← h2.2]
          simp only [countPush, countPop] at *
          have := hcov2.1
          omega
    | remove e =>
      simp [pushPopOnly] at hpp

/-! ### Draining one core into another -/

theorem initCore_flatten (lbs lnb t : Nat) :
    (initCore lbs lnb t).bins.flatten = [] := by
  simp [initCore]

theorem consumeList_spec :
    ∀ (l : List Event) (dst : CoreState), Inv dst →
      (∀ e ∈ l, dst.lastPopped ≤ e.time) →
      ∃ dst2, consumeList dst l = some dst2 ∧ Inv dst2 ∧
        (↑dst2.bins.flatten : Multiset Event) = ↑dst.bins.flatten + ↑l ∧
        dst2.lastPopped = dst.lastPopped := by
  intro l
  induction l with
  | nil =>
    intro dst h _
    exact ⟨dst, rfl, h, by simp, rfl⟩
  | cons e l ih =>
    intro dst h hb
    have hle : dst.lastPopped ≤ e.time := hb e (List.mem_cons_self e l)
    have hp : corePush dst e ≠ none := by
      rw [Ne, corePush_none_iff]
      omega
    cases hp2 : corePush dst e with
    | none => exact absurd hp2 hp
    | some dst1 =>
      obtain ⟨hinv1, hms1, hlp1, -⟩ := corePush_inv h hp2
      obtain ⟨dst2, hc, hinv2, hms2, hlp2⟩ := ih dst1 hinv1
        (fun x hx => by rw [hlp1]; exact hb x (List.mem_cons_of_mem e hx))
      refine ⟨dst2, ?_, hinv2, ?_, by rw [hlp2, hlp1]⟩
      · show (corePush dst e).bind (fun d2 => consumeList d2 l) = some dst2
        rw [hp2]
        exact hc
      · have hcons : (↑dst1.bins.flatten : Multiset Event) = e ::ₘ ↑dst.bins.flatten :=
          hms1
        have hflat : (↑(e :: l) : Multiset Event) = {e} + ↑l := by
          show e ::ₘ (↑l : Multiset Event) = {e} + ↑l
          rw [← Multiset.singleton_add]
        rw [hms2, hcons, ← Multiset.singleton_add, hflat]
        abel

theorem consumeBins_spec :
    ∀ (ls : List (List Event)) (dst : CoreState), Inv dst →
      (∀ e ∈ ls.flatten, dst.lastPopped ≤ e.time) →
      ∃ dst2, List.foldlM consumeList dst ls = some dst2 ∧ Inv dst2 ∧
        (↑dst2.bins.flatten : Multiset Event) = ↑dst.bins.flatten + ↑ls.flatten ∧
        dst2.lastPopped = dst.lastPopped := by
  intro ls
  induction ls with
  | nil =>
    intro dst h _
    exact ⟨dst, rfl, h, by simp, rfl⟩
  | cons l ls ih =>
    intro dst h hb
    obtain ⟨dst1, hc1, hinv1, hms1, hlp1⟩ := consumeList_spec l dst h
      (fun e he => hb e (by rw [List.flatten_cons]; exact List.mem_append_left _ he))
    obtain ⟨dst2, hc2, hinv2, hms2, hlp2⟩ := ih dst1 hinv1
      (fun e he => by
        rw [hlp1]
        exact hb e (by rw [List.flatten_cons]; exact List.mem_append_right _ he))
    refine ⟨dst2, ?_, hinv2, ?_, by rw [hlp2, hlp1]⟩
    · rw [List.foldlM_cons, hc1]
      exact hc2
    · rw [hms2, hms1, List.flatten_cons]
      show (↑dst.bins.flatten + ↑l : Multiset Event) + ↑ls.flatten =
        ↑dst.bins.flatten + (↑l + ↑ls.flatten)
      abel

theorem coreConsume_spec {dst src : CoreState} (hd : Inv dst)
    (hlen : src.bins.length = src.numBins)
    (hb : ∀ e ∈ src.bins.flatten, dst.lastPopped ≤ e.time) :
    ∃ dst2, coreConsume dst src = some dst2 ∧ Inv dst2 ∧
      (↑dst2.bins.flatten : Multiset Event) =
        ↑dst.bins.flatten + ↑src.bins.flatten ∧
      dst2.lastPopped = dst.lastPopped := by
  unfold coreConsume
  have htake : src.bins.take src.numBins = src.bins := by
    rw [← hlen]
    exact List.take_length src.bins
  rw [htake]
  exact consumeBins_spec src.bins dst hd hb

/-! ### The retuning step preserves contents -/

theorem retuneCore_spec {st st2 : CoreState} {p f : Nat} (h : Inv st)
    (hr : retuneCore p f st = some st2) :
    Inv st2 ∧ (↑st2.bins.flatten : Multiset Event) = ↑st.bins.flatten ∧
      st2.lastPopped = st.lastPopped := by
  unfold retuneCore at hr
  cases hbc1 : bandCalc p (st.logTableSize : Int) with
  | none => rw [hbc1] at hr; cases hr
  | some c1 =>
    rw [hbc1] at hr
    cases hbc2 : bandCalc f ((st.logTableSize : Int) - 2) with
    | none => rw [hbc2] at hr; cases hr
    | some c2 =>
      rw [hbc2] at hr
      simp only [Option.some_bind] at hr
      by_cases hcond : c1 ≠ 0 ∨ c2 - c1 ≠ 0
      · rw [if_pos hcond] at hr
        by_cases hpos : 0 ≤ (st.divideShift : Int) + c1 ∧
            0 ≤ (st.logTableSize : Int) + (c2 - c1)
        · rw [if_pos hpos] at hr
          obtain ⟨dst2, hc, hinv2, hms2, hlp2⟩ :=
            @coreConsume_spec
              (initCore ((st.divideShift : Int) + c1).toNat
                ((st.logTableSize : Int) + (c2 - c1)).toNat st.lastPopped) st
              (initCore_inv _ _ _) h.geom.len
              (fun e he => h.bound e he)
          rw [hc] at hr
          injection hr with hr2
          rw [← hr2]
          refine ⟨hinv2, ?_, hlp2⟩
          rw [hms2, initCore_flatten]
          simp
        · rw [if_neg hpos] at hr
          cases hr
      · rw [if_neg hcond] at hr
        injection hr with hr2
        rw [← hr2]
        exact ⟨h, rfl, rfl⟩

/-! ### Bisimulation between the adaptive queue and a fixed-geometry core -/

theorem timesOf_card (st : CoreState) :
    (timesOf st).card = st.bins.flatten.length := by
  unfold timesOf eventsOf
  rw [Multiset.card_map]
  simp

theorem timesOf_cons {st st2 : CoreState} {e : Event}
    (h : (↑st.bins.flatten : Multiset Event) = e ::ₘ ↑st2.bins.flatten) :
    timesOf st = e.time ::ₘ timesOf st2 := by
  unfold timesOf eventsOf
  rw [h, Multiset.map_cons]

/-- Lock-step simulation: a fixed-geometry `CalQCore` fed the same pushes
and pops as an adaptive `MyCalQueue` produces exactly the same sequence of
popped times, whatever rebuilds the adaptive queue performs. -/
theorem runMy_runCore_times :
    ∀ (ops : List Op) (ref : CoreState) (q : MyQ),
      pushPopOnly ops = true → Inv ref → Inv q.queue →
      timesOf ref = timesOf q.queue → ref.lastPopped = q.queue.lastPopped →
      ∀ {poppedA : List Event} {qF : MyQ},
        runMy q ops = some (poppedA, qF) →
        ∃ poppedR stF, runCore ref ops = some (poppedR, stF) ∧
          poppedA.map Event.time = poppedR.map Event.time := by
  intro ops
  induction ops with
  | nil =>
    intro ref q hpp hiR hiA ht hl poppedA qF h
    simp only [runMy, Option.some.injEq, Prod.mk.injEq] at h
    refine ⟨[], ref, rfl, ?_⟩
    rw [← h.1]
  | cons op ops ih =>
    intro ref q hpp hiR hiA ht hl poppedA qF h
    cases op with
    | push e =>
      have hpp2 : pushPopOnly ops = true := by simpa [pushPopOnly] using hpp
      simp only [runMy] at h
      cases hp : myPush q e with
      | none => rw [hp] at h; cases h
      | some r2 =>
        rw [hp] at h
        replace h : runMy r2.2 ops = some (poppedA, qF) := h
        unfold myPush at hp
        cases hp2 : corePush q.queue e with
        | none => rw [hp2] at hp; cases hp
        | some st2 =>
          rw [hp2] at hp
          injection hp with hp3
          obtain ⟨hle, -⟩ := corePush_some_eq hp2
          cases hr2 : corePush ref e with
          | none =>
            rw [corePush_none_iff] at hr2
            rw [hl] at hr2
            omega
          | some ref2 =>
            obtain ⟨hiR2, hmsR, hlpR, -⟩ := corePush_inv hiR hr2
            obtain ⟨hiA2, hmsA, hlpA, -⟩ := corePush_inv hiA hp2
            have htimes2 : timesOf ref2 = timesOf st2 := by
              have h1 : timesOf ref2 = e.time ::ₘ timesOf ref := by
                unfold timesOf
                rw [hmsR, Multiset.map_cons]
              have h2 : timesOf st2 = e.time ::ₘ timesOf q.queue := by
                unfold timesOf
                rw [hmsA, Multiset.map_cons]
              rw [h1, h2, ht]
            have hq2 : r2.2.queue = st2 := by rw [← hp3]
            obtain ⟨poppedR, stF, hrunR, hmapeq⟩ :=
              ih ref2 r2.2 hpp2 hiR2 (by rw [hq2]; exact hiA2)
                (by rw [hq2]; exact htimes2)
                (by rw [hq2, hlpR, hlpA, hl]) h
            refine ⟨poppedR, stF, ?_, hmapeq⟩
            simp only [runCore]
            rw [hr2]
            exact hrunR
    | pop =>
      have hpp2 : pushPopOnly ops = true := by simpa [pushPopOnly] using hpp
      have hcount : ref.numEvents = q.queue.numEvents := by
        have h1 : (timesOf ref).card = (timesOf q.queue).card := by rw [ht]
        rw [timesOf_card, timesOf_card] at h1
        rw [hiR.count, hiA.count, h1]
      simp only [runMy] at h
      cases hmp : myPop q with
      | none => rw [hmp] at h; cases h
      | some r2 =>
        rw [hmp] at h
        replace h : (runMy r2.2 ops).map (fun out => (consOpt r2.1 out.1, out.2)) =
            some (poppedA, qF) := h
        cases hrunA : runMy r2.2 ops with
        | none => rw [hrunA] at h; cases h
        | some outA =>
          rw [hrunA] at h
          injection h with h2
          obtain ⟨lA, qF0⟩ := outA
          simp only [Prod.mk.injEq] at h2
          unfold myPop at hmp
          rw [corePop_acc] at hmp
          cases hpop0 : corePop q.queue 0 0 with
          | none => rw [hpop0] at hmp; cases hmp
          | some r0 =>
            rw [hpop0] at hmp
            obtain ⟨re0, rp0, rf0, rst0⟩ := r0
            replace hmp :
                (if q.popCounter + 1 = rst0.numBins then
                  (retuneCore (q.popProbeLenSum + rp0) (q.popFutureEventSum + rf0)
                      rst0).map
                    (fun stn => (re0, (⟨stn, 0, 0, 0⟩ : MyQ)))
                else
                  some (re0, (⟨rst0, q.popProbeLenSum + rp0,
                    q.popFutureEventSum + rf0, q.popCounter + 1⟩ : MyQ))) =
                some r2 := hmp
            by_cases hz : q.queue.numEvents = 0
            · have hzR : ref.numEvents = 0 := by omega
              rw [corePop_empty hz] at hpop0
              injection hpop0 with hpop1
              obtain ⟨he0, hp0, hf0, hst0⟩ : re0 = none ∧ rp0 = 0 ∧ rf0 = 0 ∧
                  rst0 = q.queue := by
                have := hpop1.symm
                simp only [Prod.mk.injEq] at this
                exact ⟨this.1, this.2.1, this.2.2.1, this.2.2.2⟩
              subst he0; subst hst0
              have hnext : ∃ q2 : MyQ, r2 = (none, q2) ∧ Inv q2.queue ∧
                  timesOf q.queue = timesOf q2.queue ∧
                  q.queue.lastPopped = q2.queue.lastPopped := by
                by_cases hchk : q.popCounter + 1 = q.queue.numBins
                · rw [if_pos hchk] at hmp
                  cases hret : retuneCore (q.popProbeLenSum + rp0)
                      (q.popFutureEventSum + rf0) q.queue with
                  | none => rw [hret] at hmp; cases hmp
                  | some stn =>
                    rw [hret] at hmp
                    injection hmp with hmp2
                    obtain ⟨hinvn, hmsn, hlpn⟩ := retuneCore_spec hiA hret
                    refine ⟨⟨stn, 0, 0, 0⟩, hmp2.symm, hinvn, ?_, hlpn.symm⟩
                    show timesOf q.queue = timesOf stn
                    unfold timesOf eventsOf
                    rw [hmsn]
                · rw [if_neg hchk] at hmp
                  injection hmp with hmp2
                  exact ⟨_, hmp2.symm, hiA, rfl, rfl⟩
              obtain ⟨q2, hr2eq, hinv2, htimes2, hlp2⟩ := hnext
              rw [hr2eq] at hrunA
              obtain ⟨poppedR, stF, hrunR, hmapeq⟩ :=
                ih ref q2 hpp2 hiR hinv2 (ht.trans htimes2) (hl.trans hlp2) hrunA
              refine ⟨poppedR, stF, ?_, ?_⟩
              · simp only [runCore]
                rw [corePop_empty hzR]
                show (runCore ref ops).map (fun out => (consOpt none out.1, out.2)) =
                  some (poppedR, stF)
                rw [hrunR]
                rfl
              · rw [← h2.1, hr2eq]
                exact hmapeq
            · have hzR : ref.numEvents ≠ 0 := by omega
              obtain ⟨eA, pA2, fA2, stA, heqA, hiA2, hmemA, hminA, hlpA2, hlpleA,
                  hmsA, -⟩ := corePop_spec hiA hz
              obtain ⟨eR, pR2, fR2, stR, heqR, hiR2, hmemR, hminR, hlpR2, hlpleR,
                  hmsR, -⟩ := corePop_spec hiR hzR
              rw [hpop0] at heqA
              injection heqA with heqA2
              obtain ⟨he0, hp0, hf0, hst0⟩ : re0 = some eA ∧ rp0 = pA2 ∧
                  rf0 = fA2 ∧ rst0 = stA := by
                simp only [Prod.mk.injEq] at heqA2
                exact heqA2
              subst hst0
              rw [he0] at hmp
              have hteq : eR.time = eA.time := by
                have htA : eA.time ∈ timesOf q.queue := by
                  unfold timesOf eventsOf
                  exact Multiset.mem_map.mpr ⟨eA, Multiset.mem_coe.mpr hmemA, rfl⟩
                have htA2 : eA.time ∈ timesOf ref := by rw [ht]; exact htA
                obtain ⟨y, hy_mem, hy_time⟩ := Multiset.mem_map.mp htA2
                have h3 : eR.time ≤ eA.time := by
                  rw [← hy_time]
                  exact hminR y (Multiset.mem_coe.mp hy_mem)
                have htR : eR.time ∈ timesOf ref := by
                  unfold timesOf eventsOf
                  exact Multiset.mem_map.mpr ⟨eR, Multiset.mem_coe.mpr hmemR, rfl⟩
                have htR2 : eR.time ∈ timesOf q.queue := by rw [← ht]; exact htR
                obtain ⟨y2, hy2_mem, hy2_time⟩ := Multiset.mem_map.mp htR2
                have h4 : eA.time ≤ eR.time := by
                  rw [← hy2_time]
                  exact hminA y2 (Multiset.mem_coe.mp hy2_mem)
                omega
              have htimes2 : timesOf stR = timesOf rst0 := by
                have h5 := timesOf_cons hmsR
                have h6 := timesOf_cons hmsA
                rw [h5, h6, hteq] at ht
                exact (Multiset.cons_inj_right _).mp ht
              have hlp3 : stR.lastPopped = rst0.lastPopped := by
                rw [hlpR2, hlpA2, hteq]
              have hnext : ∃ q2 : MyQ, r2 = (some eA, q2) ∧ Inv q2.queue ∧
                  timesOf rst0 = timesOf q2.queue ∧
                  rst0.lastPopped = q2.queue.lastPopped := by
                by_cases hchk : q.popCounter + 1 = rst0.numBins
                · rw [if_pos hchk] at hmp
                  cases hret : retuneCore (q.popProbeLenSum + rp0)
                      (q.popFutureEventSum + rf0) rst0 with
                  | none => rw [hret] at hmp; cases hmp
                  | some stn =>
                    rw [hret] at hmp
                    injection hmp with hmp2
                    obtain ⟨hinvn, hmsn, hlpn⟩ := retuneCore_spec hiA2 hret
                    refine ⟨⟨stn, 0, 0, 0⟩, hmp2.symm, hinvn, ?_, hlpn.symm⟩
                    show timesOf rst0 = timesOf stn
                    unfold timesOf eventsOf
                    rw [hmsn]
                · rw [if_neg hchk] at hmp
                  injection hmp with hmp2
                  exact ⟨_, hmp2.symm, hiA2, rfl, rfl⟩
              obtain ⟨q2, hr2eq, hinv2, htimes3, hlp4⟩ := hnext
              rw [hr2eq] at hrunA
              obtain ⟨poppedR, stF, hrunR, hmapeq⟩ :=
                ih stR q2 hpp2 hiR2 hinv2 (htimes2.trans htimes3)
                  (hlp3.trans hlp4) hrunA
              refine ⟨eR :: poppedR, stF, ?_, ?_⟩
              · simp only [runCore]
                rw [heqR]
                show (runCore stR ops).map
                    (fun out => (consOpt (some eR) out.1, out.2)) =
                  some (eR :: poppedR, stF)
                rw [hrunR]
                rfl
              · rw [← h2.1, hr2eq]
                show (eA :: lA).map Event.time = (eR :: poppedR).map Event.time
                simp only [List.map_cons]
                rw [hteq, hmapeq]
    | remove e =>
      simp [pushPopOnly] at hpp

/-! ### The retuning adjustment loops -/

theorem shiftR_zero_left (n : Int) : shiftR 0 n = 0 := by
  unfold shiftR
  split_ifs
  · rw [Nat.shiftLeft_eq]
    exact Nat.zero_mul _
  · exact Nat.zero_shiftRight _

theorem shiftR_succ (x : Nat) (n : Int) : shiftR x (n + 1) = shiftR x n / 2 := by
  cases n with
  | ofNat k =>
    show shiftR x ((k : Int) + 1) = shiftR x (k : Int) / 2
    have h1 : ((k : Int) + 1) = ((k + 1 : Nat) : Int) := by omega
    rw [h1]
    unfold shiftR
    rw [if_neg (by omega), if_neg (by omega)]
    have h2 : ((k + 1 : Nat) : Int).toNat = k + 1 := by omega
    have h3 : ((k : Nat) : Int).toNat = k := by omega
    rw [h2, h3]
    exact Nat.shiftRight_succ x k
  | negSucc k =>
    cases k with
    | zero =>
      show shiftR x (Int.negSucc 0 + 1) = shiftR x (Int.negSucc 0) / 2
      have h1 : Int.negSucc 0 + 1 = 0 := by decide
      rw [h1]
      unfold shiftR
      rw [if_neg (by omega), if_pos (by decide)]
      have h2 : (-Int.negSucc 0).toNat = 1 := by decide
      rw [h2]
      show x >>> (0 : Int).toNat = x <<< 1 / 2
      rw [Nat.shiftLeft_eq]
      show x >>> 0 = x * 2 ^ 1 / 2
      rw [pow_one, Nat.mul_div_cancel _ (by omega)]
      rfl
    | succ k2 =>
      have h1 : Int.negSucc (k2 + 1) + 1 = Int.negSucc k2 := by
        rw [Int.negSucc_eq, Int.negSucc_eq]
        push_cast
        ring
      rw [h1]
      unfold shiftR
      rw [if_pos (by rw [Int.negSucc_eq]; omega), if_pos (by rw [Int.negSucc_eq]; omega)]
      have h2 : (-Int.negSucc k2).toNat = k2 + 1 := by
        rw [Int.negSucc_eq]
        omega
      have h3 : (-Int.negSucc (k2 + 1)).toNat = k2 + 2 := by
        rw [Int.negSucc_eq]
        omega
      rw [h2, h3, Nat.shiftLeft_eq, Nat.shiftLeft_eq]
      have h4 : x * 2 ^ (k2 + 2) = x * 2 ^ (k2 + 1) * 2 := by ring
      rw [h4, Nat.mul_div_cancel _ (by omega)]

theorem shiftR_pos_of_nonpos {x : Nat} (hx : 1 ≤ x) {n : Int} (hn : n ≤ 0) :
    shiftR x n ≠ 0 := by
  unfold shiftR
  split_ifs with h
  · rw [Nat.shiftLeft_eq]
    have : 0 < 2 ^ (-n).toNat := Nat.pos_pow_of_pos _ (by omega)
    exact Nat.mul_ne_zero (by omega) (by omega)
  · have h2 : n = 0 := by omega
    rw [h2]
    show x >>> (0 : Int).toNat ≠ 0
    show x >>> 0 ≠ 0
    simpa using by omega

theorem downLoop_some :
    ∀ (fuel : Nat) (x : Nat) (base c : Int), 1 ≤ x → (base + c).toNat < fuel →
      ∃ c2, downLoop fuel x base c = some c2 ∧ shiftR x (base + c2) ≠ 0 := by
  intro fuel
  induction fuel with
  | zero => intro x base c _ hf; omega
  | succ fuel ih =>
    intro x base c hx hf
    by_cases hz : shiftR x (base + c) = 0
    · have hpos : 0 < base + c := by
        by_contra hcon
        push_neg at hcon
        exact shiftR_pos_of_nonpos hx hcon hz
      have hstep : (base + (c - 1)).toNat < fuel := by omega
      obtain ⟨c2, hdl, hnz⟩ := ih x base (c - 1) hx hstep
      refine ⟨c2, ?_, hnz⟩
      show downLoop (fuel + 1) x base c = some c2
      unfold downLoop
      rw [if_pos hz]
      exact hdl
    · refine ⟨c, ?_, hz⟩
      show downLoop (fuel + 1) x base c = some c
      unfold downLoop
      rw [if_neg hz]

theorem upLoop_some :
    ∀ (fuel : Nat) (x : Nat) (base c : Int), shiftR x (base + c) ≠ 0 →
      shiftR x (base + c) < fuel →
      ∃ c2, upLoop fuel x base c = some c2 ∧ 0 < shiftR x (base + c2) ∧
        shiftR x (base + c2) ≤ 3 := by
  intro fuel
  induction fuel with
  | zero => intro x base c _ hf; omega
  | succ fuel ih =>
    intro x base c hnz hf
    by_cases hgt : shiftR x (base + c) > 3
    · have hnext : shiftR x (base + (c + 1)) = shiftR x (base + c) / 2 := by
        have h1 : base + (c + 1) = (base + c) + 1 := by ring
        rw [h1]
        exact shiftR_succ x (base + c)
      have hnz2 : shiftR x (base + (c + 1)) ≠ 0 := by
        rw [hnext]
        omega
      have hlt2 : shiftR x (base + (c + 1)) < fuel := by
        rw [hnext]
        omega
      obtain ⟨c2, hul, hband⟩ := ih x base (c + 1) hnz2 hlt2
      refine ⟨c2, ?_, hband⟩
      show upLoop (fuel + 1) x base c = some c2
      unfold upLoop
      rw [if_pos hgt]
      exact hul
    · refine ⟨c, ?_, by omega, by omega⟩
      show upLoop (fuel + 1) x base c = some c
      unfold upLoop
      rw [if_neg hgt]

theorem bandCalc_some (x : Nat) (base : Int) (hx : 1 ≤ x) :
    ∃ c, bandCalc x base = some c ∧ 0 < shiftR x (base + c) ∧
      shiftR x (base + c) ≤ 3 := by
  obtain ⟨c1, hdl, hnz⟩ := downLoop_some (base.toNat + 2) x base 0 hx (by omega)
  obtain ⟨c2, hul, hband⟩ := upLoop_some (shiftR x (base + c1) + 1) x base c1 hnz
    (by omega)
  refine ⟨c2, ?_, hband⟩
  unfold bandCalc
  rw [hdl]
  exact hul

theorem downLoop_zero_diverges :
    ∀ (fuel : Nat) (base c : Int), downLoop fuel 0 base c = none := by
  intro fuel
  induction fuel with
  | zero => intro base c; rfl
  | succ fuel ih =>
    intro base c
    unfold downLoop
    rw [if_pos (shiftR_zero_left _)]
    exact ih base (c - 1)

theorem bandCalc_zero_diverges (base : Int) : bandCalc 0 base = none := by
  unfold bandCalc
  rw [downLoop_zero_diverges]
  rfl

/-! ## Claim-level theorems -/

/-- Claim C1: along every remove-free operation sequence run from a freshly
constructed core, the times of the popped events form a non-decreasing
chain starting at the construction time, and every completed pop that
yields an event yields one of globally minimal scheduled time among the
events stored at that moment. -/
theorem calq_pop_times_monotone_and_minimal
    (ops : List Op) (logBinSize logNumBins startTime : Nat)
    {popped : List Event} {stF : CoreState}
    (hpp : pushPopOnly ops = true)
    (hrun : runCore (initCore logBinSize logNumBins startTime) ops =
      some (popped, stF)) :
    List.Chain (fun a b => a ≤ b)
        (initCore logBinSize logNumBins startTime).lastPopped
        (popped.map Event.time) ∧
      PopsMinimal (initCore logBinSize logNumBins startTime) ops :=
  ⟨runCore_chain ops (initCore logBinSize logNumBins startTime)
      (initCore_inv logBinSize logNumBins startTime) hpp hrun,
    popsMinimal_of_inv ops (initCore logBinSize logNumBins startTime)
      (initCore_inv logBinSize logNumBins startTime) hpp⟩

/-- Concrete instance of claim C1 on an interleaved push and pop run. -/
theorem calq_pop_times_monotone_and_minimal_witness :
    pushPopOnly [Op.push ⟨0, 2⟩, Op.push ⟨1, 6⟩, Op.pop, Op.push ⟨2, 4⟩,
        Op.pop, Op.pop] = true ∧
    runCore (initCore 0 2 0) [Op.push ⟨0, 2⟩, Op.push ⟨1, 6⟩, Op.pop,
        Op.push ⟨2, 4⟩, Op.pop, Op.pop] =
      some (([⟨0, 2⟩, ⟨2, 4⟩, ⟨1, 6⟩] : List Event),
        (⟨[[], [], [], []], 1, 4, 0, 3, 2, 2, 8, 0, 6⟩ : CoreState)) ∧
    (List.Chain (fun a b => a ≤ b) (initCore 0 2 0).lastPopped
        (([⟨0, 2⟩, ⟨2, 4⟩, ⟨1, 6⟩] : List Event).map Event.time) ∧
      PopsMinimal (initCore 0 2 0) [Op.push ⟨0, 2⟩, Op.push ⟨1, 6⟩, Op.pop,
        Op.push ⟨2, 4⟩, Op.pop, Op.pop]) :=
  ⟨by decide, by decide,
    @calq_pop_times_monotone_and_minimal
      [Op.push ⟨0, 2⟩, Op.push ⟨1, 6⟩, Op.pop, Op.push ⟨2, 4⟩, Op.pop, Op.pop]
      0 2 0 [⟨0, 2⟩, ⟨2, 4⟩, ⟨1, 6⟩]
      ⟨[[], [], [], []], 1, 4, 0, 3, 2, 2, 8, 0, 6⟩
      (by decide) (by decide)⟩

/-- Claim C2: a remove-free operation sequence run through the adaptive
queue (whose pops may retune and rebuild the core) produces exactly the
same sequence of popped times as the same sequence run through a fixed,
never-resizing reference core constructed at the same start time, whatever
geometry the reference uses. -/
theorem calq_rebuild_observationally_transparent
    (ops : List Op) (startTime initLogNumEvents logBinSize logNumBins : Nat)
    {poppedA : List Event} {qF : MyQ}
    (hpp : pushPopOnly ops = true)
    (h : runMy (initMy startTime initLogNumEvents) ops = some (poppedA, qF)) :
    ∃ poppedR stF,
      runCore (initCore logBinSize logNumBins startTime) ops =
        some (poppedR, stF) ∧
      poppedA.map Event.time = poppedR.map Event.time := by
  have hq : Inv (initMy startTime initLogNumEvents).queue :=
    initCore_inv 0 (initLogNumEvents + 1) startTime
  have ht : timesOf (initCore logBinSize logNumBins startTime) =
      timesOf (initMy startTime initLogNumEvents).queue := by
    show timesOf (initCore logBinSize logNumBins startTime) =
      timesOf (initCore 0 (initLogNumEvents + 1) startTime)
    simp [timesOf, eventsOf, initCore_flatten]
  exact runMy_runCore_times ops (initCore logBinSize logNumBins startTime)
    (initMy startTime initLogNumEvents) hpp
    (initCore_inv logBinSize logNumBins startTime) hq ht rfl h

/-- Concrete instance of claim C2: two pushes and two pops on the adaptive
queue started with a two-bin core; the second pop triggers the retuning
check and rebuilds the core to four bins, yet the popped times agree with
the fixed two-bin reference. -/
theorem calq_rebuild_observationally_transparent_witness :
    pushPopOnly [Op.push ⟨0, 3⟩, Op.push ⟨1, 4⟩, Op.pop, Op.pop] = true ∧
    runMy (initMy 0 0) [Op.push ⟨0, 3⟩, Op.push ⟨1, 4⟩, Op.pop, Op.pop] =
      some (([⟨0, 3⟩, ⟨1, 4⟩] : List Event),
        (⟨⟨[[], [], [], []], 1, 4, 0, 3, 2, 0, 8, 0, 4⟩, 0, 0, 0⟩ : MyQ)) ∧
    (∃ poppedR stF,
      runCore (initCore 0 1 0) [Op.push ⟨0, 3⟩, Op.push ⟨1, 4⟩, Op.pop,
          Op.pop] = some (poppedR, stF) ∧
      ([⟨0, 3⟩, ⟨1, 4⟩] : List Event).map Event.time =
        poppedR.map Event.time) :=
  ⟨by decide, by decide,
    @calq_rebuild_observationally_transparent
      [Op.push ⟨0, 3⟩, Op.push ⟨1, 4⟩, Op.pop, Op.pop] 0 0 0 1
      [⟨0, 3⟩, ⟨1, 4⟩]
      ⟨⟨[[], [], [], []], 1, 4, 0, 3, 2, 0, 8, 0, 4⟩, 0, 0, 0⟩
      (by decide) (by decide)⟩

/-- Claim C3, corrected: the count law numEvents = N − M holds for
remove-free interleavings in which every pop is issued while at least one
event is stored (popsCovered); a pop issued on an empty core returns no
event and leaves the state, in particular numEvents, unchanged.  The mere
side condition M ≤ N of the original claim is not sufficient, as the
separate counterexample shows. -/
theorem calq_count_conservation
    (ops : List Op) (logBinSize logNumBins startTime : Nat) (stE : CoreState)
    {popped : List Event} {stF : CoreState}
    (hpp : pushPopOnly ops = true)
    (hcov : popsCovered (initCore logBinSize logNumBins startTime).numEvents
      ops = true)
    (hrun : runCore (initCore logBinSize logNumBins startTime) ops =
      some (popped, stF))
    (hE : stE.numEvents = 0) :
    stF.numEvents = countPush ops - countPop ops ∧
      corePop stE 0 0 = some (none, 0, 0, stE) := by
  constructor
  · have h := runCore_count ops (initCore logBinSize logNumBins startTime)
      hpp hcov hrun
    have h0 : (initCore logBinSize logNumBins startTime).numEvents = 0 := rfl
    omega
  · exact corePop_empty hE 0 0

/-- Concrete instance of the corrected claim C3: two pushes and one covered
pop leave one stored event, and a pop on a fresh empty core returns no
event and changes nothing. -/
theorem calq_count_conservation_witness :
    pushPopOnly [Op.push ⟨0, 3⟩, Op.push ⟨1, 9⟩, Op.pop] = true ∧
    popsCovered (initCore 0 2 0).numEvents
      [Op.push ⟨0, 3⟩, Op.push ⟨1, 9⟩, Op.pop] = true ∧
    runCore (initCore 0 2 0) [Op.push ⟨0, 3⟩, Op.push ⟨1, 9⟩, Op.pop] =
      some (([⟨0, 3⟩] : List Event),
        (⟨[[], [⟨1, 9⟩], [], []], 1, 4, 0, 3, 2, 3, 4, 1, 3⟩ : CoreState)) ∧
    (initCore 0 1 5).numEvents = 0 ∧
    ((⟨[[], [⟨1, 9⟩], [], []], 1, 4, 0, 3, 2, 3, 4, 1, 3⟩ :
        CoreState).numEvents =
      countPush [Op.push ⟨0, 3⟩, Op.push ⟨1, 9⟩, Op.pop] -
        countPop [Op.push ⟨0, 3⟩, Op.push ⟨1, 9⟩, Op.pop] ∧
      corePop (initCore 0 1 5) 0 0 = some (none, 0, 0, initCore 0 1 5)) :=
  ⟨by decide, by decide, by decide, by decide,
    @calq_count_conservation [Op.push ⟨0, 3⟩, Op.push ⟨1, 9⟩, Op.pop] 0 2 0
      (initCore 0 1 5) [⟨0, 3⟩]
      ⟨[[], [⟨1, 9⟩], [], []], 1, 4, 0, 3, 2, 3, 4, 1, 3⟩
      (by decide) (by decide) (by decide) (by decide)⟩

/-- Counterexample to claim C3 as stated: the interleaving pop-then-push
has N = M = 1 (so M ≤ N) and no removes, yet the final numEvents is 1, not
N − M = 0, because the pop was issued on an empty core and decremented
nothing. -/
theorem calq_count_interleaving_counterexample :
    countPop [Op.pop, Op.push ⟨0, 0⟩] ≤ countPush [Op.pop, Op.push ⟨0, 0⟩] ∧
    pushPopOnly [Op.pop, Op.push ⟨0, 0⟩] = true ∧
    runCore (initCore 0 1 0) [Op.pop, Op.push ⟨0, 0⟩] =
      some (([] : List Event),
        (⟨[[⟨0, 0⟩], []], 1, 2, 0, 1, 1, 0, 2, 1, 0⟩ : CoreState)) ∧
    (⟨[[⟨0, 0⟩], []], 1, 2, 0, 1, 1, 0, 2, 1, 0⟩ : CoreState).numEvents ≠
      countPush [Op.pop, Op.push ⟨0, 0⟩] - countPop [Op.pop, Op.push ⟨0, 0⟩] :=
  ⟨by decide, by decide, by decide, by decide⟩

/-- Claim C4, refuted by a code bug: the scan of EventList::remove never
advances its prevToCurr pointer, so removing an event that sits past the
second position of its bucket list loops forever.  Concretely, pushing
three events of times 1, 5 and 9 (all hashing to the single bucket of a
core with bin size 4 and one bin) and then removing the time-9 event never
terminates, both at the level of the bucket list and of the whole run. -/
theorem calq_remove_third_event_diverges :
    listRemove (⟨2, 9⟩ : Event) [⟨0, 1⟩, ⟨1, 5⟩, ⟨2, 9⟩] = none ∧
    runCore (initCore 2 0 0) [Op.push ⟨0, 1⟩, Op.push ⟨1, 5⟩, Op.push ⟨2, 9⟩,
      Op.remove ⟨2, 9⟩] = none :=
  ⟨by decide, by decide⟩

/-- Claim C5, corrected: when both accumulated counters are at least 1, the
two adjustment loops of the retuning check terminate and produce shift
amounts that place each counter, shifted by its base plus the produced
change, in the band (0, 3]; but a counter equal to 0 (possible, since both
counters start at 0 and a pop can contribute 0) makes the corresponding
down loop run forever, so the original unconditional termination claim
fails, as the separate counterexample shows. -/
theorem calq_retune_band_when_counters_positive
    (probeSum futSum : Nat) (logNumBins : Int)
    (hp : 1 ≤ probeSum) (hf : 1 ≤ futSum) :
    (∃ c, bandCalc probeSum logNumBins = some c ∧
        0 < shiftR probeSum (logNumBins + c) ∧
        shiftR probeSum (logNumBins + c) ≤ 3) ∧
      (∃ c, bandCalc futSum (logNumBins - 2) = some c ∧
        0 < shiftR futSum ((logNumBins - 2) + c) ∧
        shiftR futSum ((logNumBins - 2) + c) ≤ 3) :=
  ⟨bandCalc_some probeSum logNumBins hp,
    bandCalc_some futSum (logNumBins - 2) hf⟩

/-- Concrete instance of the corrected claim C5 at counters 5 and 3 with
two log bins. -/
theorem calq_retune_band_when_counters_positive_witness :
    1 ≤ 5 ∧ 1 ≤ 3 ∧
      ((∃ c, bandCalc 5 2 = some c ∧ 0 < shiftR 5 (2 + c) ∧
          shiftR 5 (2 + c) ≤ 3) ∧
        (∃ c, bandCalc 3 (2 - 2) = some c ∧ 0 < shiftR 3 ((2 - 2) + c) ∧
          shiftR 3 ((2 - 2) + c) ≤ 3)) :=
  ⟨by decide, by decide,
    calq_retune_band_when_counters_positive 5 3 2 (by decide) (by decide)⟩

/-- Counterexample to claim C5 as stated: with a counter of 0 the down
loop condition is satisfied at every shift amount, so the adjustment never
terminates, at base 2 as at any other base. -/
theorem calq_retune_zero_counter_diverges :
    bandCalc 0 2 = none ∧ downLoop 1000 0 2 0 = none :=
  ⟨bandCalc_zero_diverges 2, downLoop_zero_diverges 1000 2 0⟩

/-- Claim C6: a push fails the causality assertion exactly when the pushed
time lies strictly below lastPopped; equivalently, every push with time at
least lastPopped is accepted, and every push with a smaller time is flagged
rather than silently inserted. -/
theorem calq_push_causality_check (st : CoreState) (e : Event) :
    corePush st e = none ↔ e.time < st.lastPopped :=
  corePush_none_iff

/-- Counterexample to claim C7 as stated: in the bin size 1, four bin,
start time 0 scenario with pushes at times 5, 1, 3, 1, the two time-1
events come back in reverse push order (the event pushed last, id 3, pops
before the one pushed earlier, id 1), not in push order. -/
theorem calq_equal_time_pop_order_counterexample :
    (runCore (initCore 0 2 0) [Op.push ⟨0, 5⟩, Op.push ⟨1, 1⟩, Op.push ⟨2, 3⟩,
        Op.push ⟨3, 1⟩, Op.pop, Op.pop, Op.pop, Op.pop]).map
      (fun r => r.1.map Event.id) = some [3, 1, 2, 0] := by
  decide

/-- Claim C7, corrected: the scenario (bin size 1, four bins, start time 0,
pushes at times 5, 1, 3, 1, four pops) returns the times 1, 1, 3, 5 in
non-decreasing order and reads current time 1 after the two time-1 pops,
but the two equal-time events come back in reverse push order, because the
ordered insertion places a new event before the first stored event of equal
time. -/
theorem calq_scenario_pop_order_lifo :
    runCore (initCore 0 2 0) [Op.push ⟨0, 5⟩, Op.push ⟨1, 1⟩, Op.push ⟨2, 3⟩,
        Op.push ⟨3, 1⟩, Op.pop, Op.pop, Op.pop, Op.pop] =
      some (([⟨3, 1⟩, ⟨1, 1⟩, ⟨2, 3⟩, ⟨0, 5⟩] : List Event),
        (⟨[[], [], [], []], 1, 4, 0, 3, 2, 1, 8, 0, 5⟩ : CoreState)) ∧
    (runCore (initCore 0 2 0) [Op.push ⟨0, 5⟩, Op.push ⟨1, 1⟩, Op.push ⟨2, 3⟩,
        Op.push ⟨3, 1⟩, Op.pop, Op.pop]).map (fun r => r.2.lastPopped) =
      some 1 :=
  ⟨by decide, by decide⟩

/-- Claim C8: in a core of year length 16 started at time 0, after pushing
a single event of time 100 the first pop scans 100 bins, sees the stored
event as a future-year event 6 times (once per intervening year) without
returning it prematurely, and returns it exactly once, in the year in which
nextYearStart has advanced to 112, past 100; afterwards the core is
empty. -/
theorem calq_future_year_scan_scenario :
    (initCore 0 4 0).moduloMask + 1 = 16 ∧
    (corePush (initCore 0 4 0) ⟨0, 100⟩).bind (fun st => corePop st 0 0) =
      some (some (⟨0, 100⟩ : Event), 100, 6,
        (⟨List.replicate 16 [], 1, 16, 0, 15, 4, 4, 112, 0, 100⟩ : CoreState)) ∧
    100 < (⟨List.replicate 16 [], 1, 16, 0, 15, 4, 4, 112, 0, 100⟩ :
      CoreState).nextYearStart :=
  ⟨by decide, by decide, by decide⟩

/-- Claim C9: after running any terminating operation sequence (pushes,
pops and removes) from a freshly constructed core, every stored event sits
in the bucket list whose index is computed from its time by the slot
function of the current geometry, time AND moduloMask shifted right by
divideShift. -/
theorem calq_bucket_slot_invariant
    (ops : List Op) (logBinSize logNumBins startTime : Nat)
    {popped : List Event} {stF : CoreState}
    (hrun : runCore (initCore logBinSize logNumBins startTime) ops =
      some (popped, stF)) :
    Slotted stF :=
  (runCore_GS ops (initCore logBinSize logNumBins startTime)
    (initCore_inv logBinSize logNumBins startTime).geom
    (initCore_inv logBinSize logNumBins startTime).slotted hrun).2

/-- Concrete instance of claim C9 after two pushes into a four-bin core. -/
theorem calq_bucket_slot_invariant_witness :
    runCore (initCore 0 2 0) [Op.push ⟨0, 5⟩, Op.push ⟨1, 7⟩] =
      some (([] : List Event),
        (⟨[[], [⟨0, 5⟩], [], [⟨1, 7⟩]], 1, 4, 0, 3, 2, 0, 4, 2, 0⟩ :
          CoreState)) ∧
    Slotted ⟨[[], [⟨0, 5⟩], [], [⟨1, 7⟩]], 1, 4, 0, 3, 2, 0, 4, 2, 0⟩ :=
  ⟨by decide,
    @calq_bucket_slot_invariant [Op.push ⟨0, 5⟩, Op.push ⟨1, 7⟩] 0 2 0 []
      ⟨[[], [⟨0, 5⟩], [], [⟨1, 7⟩]], 1, 4, 0, 3, 2, 0, 4, 2, 0⟩
      (by decide)⟩

/-- Claim C10: a completed remove never touches numEvents, so on any state
whose count field matches its contents, a successful removal leaves a state
whose numEvents exceeds the number of stored events by one. -/
theorem calq_remove_leaves_numEvents {st st2 : CoreState} {e : Event}
    {b : Bool} (hcount : st.numEvents = st.bins.flatten.length)
    (h : coreRemove st e = some (b, st2)) :
    st2.numEvents = st.numEvents ∧
      (b = true → st2.numEvents = st2.bins.flatten.length + 1) := by
  obtain ⟨l2, hl, rfl⟩ := coreRemove_eq h
  refine ⟨rfl, ?_⟩
  intro hb
  subst hb
  have hlen := (listRemove_spec e _ hl).1 rfl
  by_cases hi : getSlot st e.time < st.bins.length
  · have hms := flatten_set_add st.bins (getSlot st e.time) l2 hi
    have hflen : (st.bins.set (getSlot st e.time) l2).flatten.length +
        (st.bins.getD (getSlot st e.time) []).length =
        st.bins.flatten.length + l2.length := by
      have := congrArg Multiset.card hms
      simpa using this
    show st.numEvents = (st.bins.set (getSlot st e.time) l2).flatten.length + 1
    omega
  · exfalso
    have hgd : st.bins.getD (getSlot st e.time) [] = [] := by
      rw [List.getD_eq_getElem?_getD, List.getElem?_eq_none (by omega)]
      rfl
    rw [hgd] at hl
    simp [listRemove] at hl

/-- Concrete instance of claim C10: removing the time-5 event from a state
holding two events succeeds and leaves numEvents at 2 while only one event
remains stored. -/
theorem calq_remove_leaves_numEvents_witness :
    (⟨[[], [⟨0, 5⟩], [], [⟨1, 7⟩]], 1, 4, 0, 3, 2, 0, 4, 2, 0⟩ :
        CoreState).numEvents =
      (⟨[[], [⟨0, 5⟩], [], [⟨1, 7⟩]], 1, 4, 0, 3, 2, 0, 4, 2, 0⟩ :
        CoreState).bins.flatten.length ∧
    coreRemove ⟨[[], [⟨0, 5⟩], [], [⟨1, 7⟩]], 1, 4, 0, 3, 2, 0, 4, 2, 0⟩
        (⟨0, 5⟩ : Event) =
      some (true,
        (⟨[[], [], [], [⟨1, 7⟩]], 1, 4, 0, 3, 2, 0, 4, 2, 0⟩ : CoreState)) ∧
    ((⟨[[], [], [], [⟨1, 7⟩]], 1, 4, 0, 3, 2, 0, 4, 2, 0⟩ :
        CoreState).numEvents =
      (⟨[[], [⟨0, 5⟩], [], [⟨1, 7⟩]], 1, 4, 0, 3, 2, 0, 4, 2, 0⟩ :
        CoreState).numEvents ∧
      (true = true →
        (⟨[[], [], [], [⟨1, 7⟩]], 1, 4, 0, 3, 2, 0, 4, 2, 0⟩ :
            CoreState).numEvents =
          (⟨[[], [], [], [⟨1, 7⟩]], 1, 4, 0, 3, 2, 0, 4, 2, 0⟩ :
            CoreState).bins.flatten.length + 1)) :=
  ⟨by decide, by decide,
    @calq_remove_leaves_numEvents
      ⟨[[], [⟨0, 5⟩], [], [⟨1, 7⟩]], 1, 4, 0, 3, 2, 0, 4, 2, 0⟩
      ⟨[[], [], [], [⟨1, 7⟩]], 1, 4, 0, 3, 2, 0, 4, 2, 0⟩
      ⟨0, 5⟩ true (by decide) (by decide)⟩

end CalQ
